import Mathlib

/-!
# dman-reluctant: cache-backed fetch of manual pages

A shallow embedding of `internal/man/fetch.go`, `internal/man/cache.go` and
`dman/main.go`, with the properties of the fetch orchestration stated over it.

Conventions of the embedding.

* Go `error` values are the inductive `GoError`; a nil error is `none`.
* What the standard library and the operating system do is a parameter: the
  record `World` holds the answers of `url.Parse`, `client.Do`, `os.UserHomeDir`,
  the wall clock and, per call site, the failure (if any) of every fallible
  file operation.  Everything the program itself changes (cache files, issued
  requests, log lines) is in the state `Sys`, passed explicitly.
* An HTTP body is a finite byte sequence followed by end of file or by a read
  error; `io.Copy` and `io.LimitReader` are modelled on such bodies.  A writer
  takes bytes until its (optional) write failure.
* The answer of the service for a URL is the same throughout a run.
* A function that returns `(value, error)` with exactly one of the two set
  (`mktemp`, `fetch`, `refresh`, `Cache.path`) returns an `Except`; `Cache.Get`
  and `get`, which can return a stream next to an error, return the pair.
* Time limits (`requestTimeout`) and the closing of files are not modelled: a
  request that times out is a transport error of `client.Do`.
-/

deriving instance DecidableEq for Except

namespace Dman

/-! ## Data model -/

/-- One octet of a document. -/
abbrev Byte := Fin 256

/-- Modelled from the spec: the declaration of the type Key is not among the
sources (only its uses `k.Page`, `k.Dist`, `k.Lang` and the literal in `main`
are); the spec gives it as three strings with structural equality. -/
structure Key where
  Page : String
  Dist : String
  Lang : String
deriving DecidableEq, Repr

/-- A parsed `*url.URL`, identified by the text it was parsed from. -/
structure URL where
  raw : String
deriving DecidableEq, Repr

/-- The Go `error` values of the program.  `CacheNotFoundError` and
`CacheStaleError` are the two sentinel variables of cache.go (compared by
identity in `get`); `errorString` is a value of `errors.New`; `errorf fmt e` is
`fmt.Errorf(fmt, e)`; `osError` is an error of the os, net/http or net/url
packages, with the answer `os.IsNotExist` gives for it; `HTTPError` and
`FetchError` are the two struct types of fetch.go. -/
inductive GoError where
  | CacheNotFoundError
  | CacheStaleError
  | errorString (s : String)
  | errorf (format : String) (arg : GoError)
  | osError (msg : String) (notExist : Bool)
  | HTTPError (url : URL) (Status : String) (StatusCode : Int)
  | FetchError (Err : GoError) (fatal : Bool)
deriving DecidableEq, Repr

/-- The function `os.IsNotExist`. -/
def GoError.isNotExist : GoError → Bool
  | .osError _ b => b
  | _ => false

/-- The method `FetchError.IsNotFound`, on the fields of the receiver: the
wrapped error is an `HTTPError` with status code 404. -/
def FetchError.IsNotFound (Err : GoError) (_fatal : Bool) : Bool :=
  match Err with
  | .HTTPError _ _ code => decide (code = 404)
  | _ => false

/-- A response body (an `io.Reader`): the bytes it delivers, then end of file
(`none`) or the error of the read that follows the last byte. -/
structure Body where
  bytes : List Byte
  err : Option GoError
deriving DecidableEq, Repr

/-- The fields of `*http.Response` that fetchOne reads. -/
structure Response where
  Status : String
  StatusCode : Int
  Body : Dman.Body
deriving DecidableEq, Repr

/-- An `io.Writer`, here the temporary file the document is fetched into: the
bytes it holds, and, if its writes are going to fail, after how many more
bytes and with which error. -/
structure Writer where
  data : List Byte
  fail : Option (Nat × GoError)
deriving DecidableEq, Repr

/-- An open file handed to the caller (`io.ReadCloser`): the content and the
modification time of the file it was opened on, and the read offset.  A handle
keeps the content it was opened on: Put never writes into an existing file, it
removes the file and creates a new one. -/
structure Stream where
  data : List Byte
  pos : Nat
  modTime : Int
deriving DecidableEq, Repr

/-- What a reader of the stream gets: the bytes from the read offset on. -/
def Stream.content (f : Stream) : List Byte := f.data.drop f.pos

/-- A regular file of the cache directory. -/
structure File where
  data : List Byte
  modTime : Int
deriving DecidableEq, Repr

/-- A line written through package log. -/
inductive LogLine where
  | fallingBack (rerr : GoError)
  | print (err : GoError)
deriving DecidableEq, Repr

/-- The fallible file operations of the program, one per call site. -/
inductive Op where
  | cacheOpen | cacheStat
  | putRemove | putMkdirAll | putCreate | putRead | putClose
  | tempFile | tempRemove | fetchSeek | refreshSeek
deriving DecidableEq, Repr

/-- The environment of one run: the standard library and the operating system
as seen by the program. -/
structure World where
  /-- Answer of `url.Parse`. -/
  parse : String → Except GoError URL
  /-- Answer of `client.Do` for a request of the URL: a transport error or a response. -/
  client : URL → Except GoError Response
  /-- Answer of `os.UserHomeDir`. -/
  home : Except GoError String
  /-- Wall clock, in nanoseconds. -/
  now : Int
  /-- Failure of a file operation (other than absence of the file), by call site. -/
  fault : Op → Option GoError
  /-- Write failure of the temporary file: after how many bytes, which error. -/
  tempFail : Option (Nat × GoError)
  /-- Write failure of a newly created cache file. -/
  cacheFail : Option (Nat × GoError)

/-- The state the program changes. -/
structure Sys where
  /-- Regular files by path. -/
  files : String → Option File
  /-- URLs requested so far, oldest first. -/
  requests : List URL
  /-- Lines logged so far, oldest first. -/
  log : List LogLine

/-! ## fetch.go -/

def server : String := "https://dyn.manpages.debian.org"

def bodyLengthLimit : Nat := 5 * 1024 * 1024

/-- The reader `io.LimitReader(r, n)`: at most `n` bytes of `r`, then end of
file; the error of `r` is seen only if `r` ends before `n` bytes. -/
def LimitReader (r : Body) (n : Nat) : Body :=
  ⟨r.bytes.take n, if r.bytes.length < n then r.err else none⟩

/-- The call `io.Copy(w, r)`: the writer afterwards, the number of bytes
written and the first error met. -/
def ioCopy (w : Writer) (r : Body) : Writer × Nat × Option GoError :=
  match w.fail with
  | none => (⟨w.data ++ r.bytes, none⟩, r.bytes.length, r.err)
  | some (room, e) =>
    if r.bytes.length ≤ room then
      (⟨w.data ++ r.bytes, some (room - r.bytes.length, e)⟩, r.bytes.length, r.err)
    else
      (⟨w.data ++ r.bytes.take room, some (0, e)⟩, room, some e)

/-- The function `fetchOne`: the error it returns, the writer and the state
afterwards (the request is recorded in the state). -/
def fetchOne (W : World) (u : URL) (w : Writer) (s : Sys) : Option GoError × Writer × Sys :=
  let s1 : Sys := ⟨s.files, s.requests ++ [u], s.log⟩
  match W.client u with
  | .error err => (some (.FetchError err false), w, s1)
  | .ok res =>
    let r := LimitReader res.Body bodyLengthLimit
    if res.StatusCode ≥ 400 ∧ res.StatusCode < 600 then
      -- io.Copy(&bitbucket{}, r): the body goes to a writer of its own (the type
      -- bitbucket is not among the sources) and the results of the copy are
      -- dropped; w is not touched
      (some (.FetchError (.HTTPError u res.Status res.StatusCode) false), w, s1)
    else
      match ioCopy w r with
      | (w1, n, err) =>
        -- w is tainted.  All returned errors must be fatal from this point.
        match err with
        | some e => (some (.FetchError e true), w1, s1)
        | none =>
          if n = bodyLengthLimit then
            (some (.FetchError (.errorString "fetch: abandoned read: body too large") true), w1, s1)
          else
            (none, w1, s1)

/-- The loop of buildCandidateURLs over `url.Parse`: the first error ends it. -/
def parseAll (parse : String → Except GoError URL) : List String → Except GoError (List URL)
  | [] => .ok []
  | s :: rest =>
    match parse s with
    | .error err => .error err
    | .ok u =>
      match parseAll parse rest with
      | .error err => .error err
      | .ok us => .ok (u :: us)

/-- The strings buildCandidateURLs builds before it parses them. -/
def candidateStrings (k : Key) : List String :=
  let userLang := k.Lang
  let fallbackLang := "en"
  let langs := if userLang = "" ∨ userLang = fallbackLang then [fallbackLang] else [userLang, fallbackLang]
  let gz := ".gz"
  let s := langs.map (fun lang => server ++ "/" ++ k.Dist ++ "/" ++ k.Page ++ "." ++ lang ++ gz)
  let s := s ++ [server ++ "/" ++ k.Dist ++ "/" ++ k.Page ++ gz]
  let s := s ++ langs.map (fun lang => server ++ "/" ++ k.Page ++ "." ++ lang ++ gz)
  s ++ [server ++ "/" ++ k.Page ++ gz]

/-- The function `buildCandidateURLs`, over the answers of `url.Parse`. -/
def buildCandidateURLs (parse : String → Except GoError URL) (k : Key) : Except GoError (List URL) :=
  parseAll parse (candidateStrings k)

/-- The loop of Fetch: `err` is the error of the last attempt so far. -/
def fetchLoop (W : World) : List URL → Option GoError → Writer → Sys → Option GoError × Writer × Sys
  | [], err, w, s => (err, w, s)
  | u :: us, _, w, s =>
    match fetchOne W u w s with
    | (some (.FetchError e false), w1, s1) => fetchLoop W us (some (.FetchError e false)) w1 s1
    | (some err, w1, s1) => (some err, w1, s1)
    | (none, w1, s1) => (none, w1, s1)

/-- The function `Fetch`: the error it returns, the writer and the state afterwards. -/
def Fetch (W : World) (k : Key) (w : Writer) (s : Sys) : Option GoError × Writer × Sys :=
  match buildCandidateURLs W.parse k with
  | .error err => (some err, w, s)
  | .ok urls => fetchLoop W urls none w s

/-! ## cache.go -/

/-- The call `strings.Split(path, "/")`: the elements between the separators. -/
def splitSlash : List Char → List (List Char)
  | [] => [[]]
  | c :: cs =>
    if c = '/' then [] :: splitSlash cs
    else
      match splitSlash cs with
      | [] => [[c]]
      | h :: t => (c :: h) :: t

/-- The call `strings.Join(elems, "/")`. -/
def joinSlash : List (List Char) → List Char
  | [] => []
  | [e] => e
  | e :: es => e ++ '/' :: joinSlash es

/-- One element of the path met by `filepath.Clean`, on the elements kept so
far (last one first): an empty element or `.` is dropped, `..` removes the
element before it, or is kept when nothing can be removed and the path is not
rooted, any other element is kept. -/
def cleanStep (rooted : Bool) (st : List (List Char)) (e : List Char) : List (List Char) :=
  if e = [] ∨ e = ['.'] then st
  else if e = ['.', '.'] then
    match st with
    | [] => if rooted then [] else [e]
    | top :: rest => if top = ['.', '.'] then e :: st else rest
  else e :: st

/-- The function `filepath.Clean` for the separator `/`. -/
def Clean (path : List Char) : List Char :=
  match path with
  | [] => ['.']
  | c :: _ =>
    let rooted := decide (c = '/')
    let st := (splitSlash path).foldl (cleanStep rooted) []
    if rooted then '/' :: joinSlash st.reverse
    else if st = [] then ['.'] else joinSlash st.reverse

/-- The function `filepath.Join`: leading empty elements are dropped, the rest
is joined with `/` and cleaned; no non-empty element gives the empty string. -/
def filepathJoin : List String → String
  | [] => ""
  | e :: es =>
    if e = "" then filepathJoin es
    else ⟨Clean (joinSlash ((e :: es).map String.data))⟩

structure Cache where
  Root : String
deriving DecidableEq, Repr

/-- The helper `fmtErr` of Get and Put. -/
def fmtErr (err : GoError) : GoError := .errorf "cache: %s" err

def maxDuration : Int := 2 ^ 63 - 1

def minDuration : Int := -(2 ^ 63)

/-- The call `time.Since(t)`, a `time.Duration`: the difference to the wall
clock, held to the range of an int64 (`Time.Sub` saturates). -/
def timeSince (W : World) (t : Int) : Int :=
  max minDuration (min maxDuration (W.now - t))

/-- The call `os.Open(p)`: a failure of the operating system, or the absence of
the file, or a handle on it. -/
def osOpen (W : World) (s : Sys) (p : String) : Except GoError Stream :=
  match W.fault .cacheOpen with
  | some err => .error err
  | none =>
    match s.files p with
    | none => .error (.osError "no such file or directory" true)
    | some f => .ok ⟨f.data, 0, f.modTime⟩

/-- The call `os.Remove(p)`: a failure of the operating system, or the absence
of the file, or the file is gone afterwards. -/
def osRemove (W : World) (s : Sys) (p : String) : Option GoError × Sys :=
  match W.fault .putRemove with
  | some err => (some err, s)
  | none =>
    match s.files p with
    | none => (some (.osError "no such file or directory" true), s)
    | some _ => (none, ⟨fun q => if q = p then none else s.files q, s.requests, s.log⟩)

/-- The method `Cache.defaultRoot`. -/
def Cache.defaultRoot (W : World) (_c : Cache) : Except GoError String :=
  match W.home with
  | .error err => .error (.errorf "root directory unknown: %s" err)
  | .ok h => .ok (filepathJoin [h, ".dman/cache"])

/-- The method `Cache.path`. -/
def Cache.path (W : World) (c : Cache) (k : Key) : Except GoError String :=
  if c.Root = "" then
    match c.defaultRoot W with
    | .error err => .error err
    | .ok root => .ok (filepathJoin [root, k.Dist, k.Lang, k.Page])
  else .ok (filepathJoin [c.Root, k.Dist, k.Lang, k.Page])

/-- The method `Cache.Get`: the stream and the error it returns (both are
present for a stale entry). -/
def Cache.Get (W : World) (c : Cache) (k : Key) (ttl : Int) (s : Sys) : Option Stream × Option GoError :=
  match c.path W k with
  | .error err => (none, some (fmtErr err))
  | .ok p =>
    match osOpen W s p with
    | .error err =>
      if err.isNotExist then (none, some .CacheNotFoundError)
      else (none, some (fmtErr err))
    | .ok f =>
      if ttl ≤ 0 then (some f, none)
      else
        match W.fault .cacheStat with
        | some err => (none, some (fmtErr err))
        | none =>
          let age := timeSince W f.modTime
          if age > ttl then (some f, some .CacheStaleError)
          else (some f, none)

/-- The part of Put from `os.Create(p)` on: the new file takes what
`io.Copy(f, r)` writes; the deferred close reports its error only when no
other error is returned. -/
def Cache.putCreate (W : World) (p : String) (r : Stream) (s : Sys) : Option GoError × Stream × Sys :=
  match W.fault .putCreate with
  | some createError => (some (fmtErr createError), r, s)
  | none =>
    match ioCopy ⟨[], W.cacheFail⟩ ⟨r.content, W.fault .putRead⟩ with
    | (f, n, err) =>
      let s1 : Sys := ⟨fun q => if q = p then some ⟨f.data, W.now⟩ else s.files q, s.requests, s.log⟩
      let r1 : Stream := ⟨r.data, r.pos + n, r.modTime⟩
      match err with
      | some e => (some (fmtErr e), r1, s1)
      | none =>
        match W.fault .putClose with
        | some closeError => (some (fmtErr closeError), r1, s1)
        | none => (none, r1, s1)

/-- The method `Cache.Put`: the error, the reader after the copy and the state. -/
def Cache.Put (W : World) (c : Cache) (k : Key) (r : Stream) (s : Sys) : Option GoError × Stream × Sys :=
  match c.path W k with
  | .error pathError => (some (fmtErr pathError), r, s)
  | .ok p =>
    match osRemove W s p with
    | (some err, s1) =>
      if !err.isNotExist then (some (fmtErr err), r, s1)
      else
        match W.fault .putMkdirAll with
        | some err => (some (fmtErr err), r, s1)
        | none => Cache.putCreate W p r s1
    | (none, s1) => Cache.putCreate W p r s1

/-! ## main.go -/

/-- The constant `24 * time.Hour * 7 * 2`, in nanoseconds. -/
def defaultCacheTTL : Int := 24 * (3600 * 1000000000) * 7 * 2

/-- The variable `cache` of main.go: a Cache without a Root. -/
def cache : Cache := ⟨""⟩

/-- The function `mktemp`: a new, empty, unlinked temporary file. -/
def mktemp (W : World) : Except GoError Writer :=
  match W.fault .tempFile with
  | some err => .error err
  | none =>
    match W.fault .tempRemove with
    | some err => .error err
    | none => .ok ⟨[], W.tempFail⟩

/-- The function `fetch` of main.go: the temporary file, rewound, with what
Fetch wrote into it. -/
def fetch (W : World) (k : Key) (s : Sys) : Except GoError Stream × Sys :=
  match mktemp W with
  | .error err => (.error err, s)
  | .ok f =>
    match Fetch W k f s with
    | (some err, _, s1) => (.error err, s1)
    | (none, f1, s1) =>
      match W.fault .fetchSeek with
      | some err => (.error err, s1)
      | none => (.ok ⟨f1.data, 0, W.now⟩, s1)

/-- The function `refresh`: an error of Put is logged and does not end it. -/
def refresh (W : World) (k : Key) (s : Sys) : Except GoError Stream × Sys :=
  match fetch W k s with
  | (.error err, s1) => (.error err, s1)
  | (.ok f, s1) =>
    match cache.Put W k f s1 with
    | (perr, f1, s2) =>
      let s3 : Sys :=
        match perr with
        | some err => ⟨s2.files, s2.requests, s2.log ++ [.print err]⟩
        | none => s2
      match W.fault .refreshSeek with
      | some err => (.error err, s3)
      | none => (.ok ⟨f1.data, 0, f1.modTime⟩, s3)

/-- The function `get` of main.go: the stream and the error it returns, and
the state afterwards. -/
def get (W : World) (k : Key) (s : Sys) : (Option Stream × Option GoError) × Sys :=
  match cache.Get W k defaultCacheTTL s with
  | (c, none) => ((c, none), s)
  | (c, some cerr) =>
    match refresh W k s with
    | (.error rerr, s1) =>
      if cerr = .CacheStaleError then
        ((c, none), ⟨s1.files, s1.requests, s1.log ++ [.fallingBack rerr]⟩)
      else ((none, some rerr), s1)
    | (.ok r, s1) =>
      -- if c != nil: c.Close()
      ((some r, none), s1)

/-! ## Notions used to state the properties -/

/-- The state when the URLs `us` have been asked for in state `s`. -/
def Sys.asked (s : Sys) (us : List URL) : Sys := ⟨s.files, s.requests ++ us, s.log⟩

/-- The error fetchOne returns after `io.Copy` gave `n` and `err`. -/
def copyVerdict (n : Nat) (err : Option GoError) : Option GoError :=
  match err with
  | some e => some (.FetchError e true)
  | none =>
    if n = bodyLengthLimit then
      some (.FetchError (.errorString "fetch: abandoned read: body too large") true)
    else none

/-- The writer takes `n` more bytes without a write error. -/
def Writer.takes (w : Writer) (n : Nat) : Prop :=
  match w.fail with
  | none => True
  | some (room, _) => n ≤ room

/-- The locations as the spec lists them, each behind the server and
before `.gz`: six when the language is set and is not `en`, else four. -/
def specLocations (k : Key) : List String :=
  if k.Lang = "" ∨ k.Lang = "en" then
    [ server ++ "/" ++ k.Dist ++ "/" ++ k.Page ++ ".en" ++ ".gz",
      server ++ "/" ++ k.Dist ++ "/" ++ k.Page ++ ".gz",
      server ++ "/" ++ k.Page ++ ".en" ++ ".gz",
      server ++ "/" ++ k.Page ++ ".gz" ]
  else
    [ server ++ "/" ++ k.Dist ++ "/" ++ k.Page ++ "." ++ k.Lang ++ ".gz",
      server ++ "/" ++ k.Dist ++ "/" ++ k.Page ++ ".en" ++ ".gz",
      server ++ "/" ++ k.Dist ++ "/" ++ k.Page ++ ".gz",
      server ++ "/" ++ k.Page ++ "." ++ k.Lang ++ ".gz",
      server ++ "/" ++ k.Page ++ ".en" ++ ".gz",
      server ++ "/" ++ k.Page ++ ".gz" ]

/-- The local file operations of the run succeed: no fault at any call site,
no write failure of the temporary file or of a new cache file. -/
def World.nominal (W : World) : Prop :=
  (∀ op, W.fault op = none) ∧ W.tempFail = none ∧ W.cacheFail = none

/-- A plain name: not empty, without a separator, and neither `.` nor `..`. -/
def plainName (x : String) : Prop :=
  x.data ≠ [] ∧ '/' ∉ x.data ∧ x.data ≠ ['.'] ∧ x.data ≠ ['.', '.']

/-- A Key whose page, distribution and language are plain names. -/
def Key.plain (k : Key) : Prop := plainName k.Page ∧ plainName k.Dist ∧ plainName k.Lang

/-- The cleaned root and a separator; no second separator after the root `/`,
and nothing at all for a root that cleans to `.` (Join drops it). -/
def cleanRootSlash (root : List Char) : List Char :=
  if Clean root = ['/'] then ['/']
  else if Clean root = ['.'] then []
  else Clean root ++ ['/']

/-- An element `filepath.Clean` keeps: not empty, not `.`, without a separator. -/
def keptElem (e : List Char) : Prop := e ≠ [] ∧ e ≠ ['.'] ∧ '/' ∉ e

/-- What Clean puts before the elements that Join adds to a root, by the
elements of the root that Clean keeps. -/
def rootDir (root : List Char) : List Char :=
  match root with
  | [] => []
  | c :: _ =>
    let st := (splitSlash root).foldl (cleanStep (decide (c = '/'))) []
    (if c = '/' then ['/'] else []) ++ (if st = [] then [] else joinSlash st.reverse ++ ['/'])

/-- Where Cache.path joins the elements of the Key to: the root of the cache,
or the default root under the home directory. -/
def Cache.root (W : World) (c : Cache) : Except GoError String :=
  if c.Root = "" then c.defaultRoot W else .ok c.Root

/-! ## A model of url.Parse and concrete runs -/

/-- The function `ishex` of net/url. -/
def ishex (c : Char) : Bool :=
  ('0' ≤ c ∧ c ≤ '9') ∨ ('a' ≤ c ∧ c ≤ 'f') ∨ ('A' ≤ c ∧ c ≤ 'F')

/-- The check of percent escapes in `unescape` of net/url: every `%` is
followed by two hexadecimal digits. -/
def validEscapes : List Char → Bool
  | [] => true
  | c :: rest =>
    if c = '%' then
      match rest with
      | a :: b :: rest2 => ishex a && ishex b && validEscapes rest2
      | _ => false
    else validEscapes rest

/-- The call `strings.Cut(s, sep)` for a one-character separator. -/
def cutAt (sep : Char) : List Char → List Char × List Char
  | [] => ([], [])
  | c :: cs => if c = sep then ([], cs) else (c :: (cutAt sep cs).1, (cutAt sep cs).2)

/-- The function `url.Parse` on the strings buildCandidateURLs builds, which
start with the constant scheme and host of `server`: of the checks of Parse the
ones such a string can fail are the one on control characters and the one on
the percent escapes of the path (before the first `?`) and of the fragment
(after the first `#`). -/
def urlParse (raw : String) : Except GoError URL :=
  let u := (cutAt '#' raw.data).1
  let frag := (cutAt '#' raw.data).2
  if u.any (fun c => c.toNat < 32 ∨ c.toNat = 127) then
    .error (.osError "parse: net/url: invalid control character in URL" false)
  else if !validEscapes (cutAt '?' u).1 then
    .error (.osError "parse: invalid URL escape" false)
  else if !validEscapes frag then
    .error (.osError "parse: invalid URL escape" false)
  else .ok ⟨raw⟩

/-- A world with the home directory `/home/user` in which no file operation fails. -/
def worldOf (client : URL → Except GoError Response) (now : Int) : World where
  parse := urlParse
  client := client
  home := .ok "/home/user"
  now := now
  fault := fun _ => none
  tempFail := none
  cacheFail := none

def notFound : Response := ⟨"404 Not Found", 404, ⟨[], none⟩⟩

def lsKey : Key := ⟨"ls", "stable", "fr"⟩

def lsPath : String := "/home/user/.dman/cache/stable/fr/ls"

def newBody : List Byte := [46, 84, 72, 10]

def oldBody : List Byte := [46, 83, 72]

/-- The server of the example scenario: 200 with `newBody` for `ls.fr`, 404 for the rest. -/
def scenarioWorld : World :=
  worldOf (fun u =>
    if u.raw = "https://dyn.manpages.debian.org/ls.fr.gz" then .ok ⟨"200 OK", 200, ⟨newBody, none⟩⟩
    else .ok notFound) 1000

/-- A server that answers 404 to everything, three weeks after time 0. -/
def absentWorld : World := worldOf (fun _ => .ok notFound) 1814400000000000

/-- A server whose answer for `stable/ls.en` breaks off after two bytes. -/
def brokenWorld : World :=
  worldOf (fun u =>
    if u.raw = "https://dyn.manpages.debian.org/stable/ls.en.gz" then
      .ok ⟨"200 OK", 200, ⟨[46, 84], some (.osError "unexpected EOF" false)⟩⟩
    else .ok notFound) 1814400000000000

/-- A server whose every answer is 200 with a body of exactly bodyLengthLimit bytes. -/
def fullWorld : World :=
  worldOf (fun _ => .ok ⟨"200 OK", 200, ⟨List.replicate bodyLengthLimit 0, none⟩⟩) 1000

def emptySys : Sys := ⟨fun _ => none, [], []⟩

/-- A cache with one entry, for `lsKey`, written at time 0. -/
def staleSys : Sys := ⟨fun q => if q = lsPath then some ⟨oldBody, 0⟩ else none, [], []⟩

def lsURLs : List URL :=
  [⟨"https://dyn.manpages.debian.org/stable/ls.fr.gz"⟩,
   ⟨"https://dyn.manpages.debian.org/stable/ls.en.gz"⟩,
   ⟨"https://dyn.manpages.debian.org/stable/ls.gz"⟩,
   ⟨"https://dyn.manpages.debian.org/ls.fr.gz"⟩,
   ⟨"https://dyn.manpages.debian.org/ls.en.gz"⟩,
   ⟨"https://dyn.manpages.debian.org/ls.gz"⟩]

/-! ## Lemmas -/

theorem Sys.asked_nil (s : Sys) : s.asked [] = s := by
  cases s; simp [Sys.asked]

theorem Sys.asked_asked (s : Sys) (us vs : List URL) : (s.asked us).asked vs = s.asked (us ++ vs) := by
  simp [Sys.asked, List.append_assoc]

theorem fetchOne_transport (W : World) (u : URL) (w : Writer) (s : Sys) (err : GoError)
    (hc : W.client u = .error err) :
    fetchOne W u w s = (some (.FetchError err false), w, s.asked [u]) := by
  unfold fetchOne Sys.asked
  rw [hc]

theorem fetchOne_status (W : World) (u : URL) (w : Writer) (s : Sys) (res : Response)
    (hc : W.client u = .ok res) (hs : res.StatusCode ≥ 400 ∧ res.StatusCode < 600) :
    fetchOne W u w s =
      (some (.FetchError (.HTTPError u res.Status res.StatusCode) false), w, s.asked [u]) := by
  unfold fetchOne Sys.asked
  rw [hc]
  dsimp only
  rw [if_pos hs]

theorem fetchOne_copy (W : World) (u : URL) (w : Writer) (s : Sys) (res : Response)
    (hc : W.client u = .ok res) (hs : ¬ (res.StatusCode ≥ 400 ∧ res.StatusCode < 600)) :
    fetchOne W u w s =
      (copyVerdict (ioCopy w (LimitReader res.Body bodyLengthLimit)).2.1
          (ioCopy w (LimitReader res.Body bodyLengthLimit)).2.2,
        (ioCopy w (LimitReader res.Body bodyLengthLimit)).1, s.asked [u]) := by
  unfold fetchOne Sys.asked copyVerdict
  rw [hc]
  dsimp only
  rw [if_neg hs]
  rcases ioCopy w (LimitReader res.Body bodyLengthLimit) with ⟨w1, n, err⟩
  cases err with
  | some e => rfl
  | none =>
    dsimp only
    split <;> rfl

theorem copyVerdict_ne_skip (n : Nat) (err : Option GoError) (e : GoError) :
    copyVerdict n err ≠ some (.FetchError e false) := by
  unfold copyVerdict
  cases err with
  | some e1 => simp
  | none =>
    dsimp only
    split <;> simp

theorem fetchOne_state (W : World) (u : URL) (w : Writer) (s : Sys) :
    (fetchOne W u w s).2.2 = s.asked [u] := by
  cases hc : W.client u with
  | error err => rw [fetchOne_transport W u w s err hc]
  | ok res =>
    by_cases hs : res.StatusCode ≥ 400 ∧ res.StatusCode < 600
    · rw [fetchOne_status W u w s res hc hs]
    · rw [fetchOne_copy W u w s res hc hs]

theorem fetchOne_skip (W : World) (u : URL) (w : Writer) (s : Sys) (e : GoError)
    (h : (fetchOne W u w s).1 = some (.FetchError e false)) (w2 : Writer) (s2 : Sys) :
    fetchOne W u w2 s2 = (some (.FetchError e false), w2, s2.asked [u]) := by
  cases hc : W.client u with
  | error err =>
    rw [fetchOne_transport W u w s err hc] at h
    rw [fetchOne_transport W u w2 s2 err hc]
    simp only [Option.some.injEq, GoError.FetchError.injEq, and_true] at h
    rw [h]
  | ok res =>
    by_cases hs : res.StatusCode ≥ 400 ∧ res.StatusCode < 600
    · rw [fetchOne_status W u w s res hc hs] at h
      rw [fetchOne_status W u w2 s2 res hc hs]
      simp only [Option.some.injEq, GoError.FetchError.injEq, and_true] at h
      rw [h]
    · rw [fetchOne_copy W u w s res hc hs] at h
      exact absurd h (copyVerdict_ne_skip _ _ e)

/-- A FetchError is the only error fetchOne returns. -/
theorem fetchOne_error (W : World) (u : URL) (w : Writer) (s : Sys) (e : GoError)
    (h : (fetchOne W u w s).1 = some e) : ∃ e0 b, e = .FetchError e0 b := by
  cases hc : W.client u with
  | error err =>
    rw [fetchOne_transport W u w s err hc] at h
    exact ⟨err, false, by simpa using h.symm⟩
  | ok res =>
    by_cases hs : res.StatusCode ≥ 400 ∧ res.StatusCode < 600
    · rw [fetchOne_status W u w s res hc hs] at h
      exact ⟨_, false, by simpa using h.symm⟩
    · rw [fetchOne_copy W u w s res hc hs] at h
      unfold copyVerdict at h
      dsimp only at h
      split at h
      · exact ⟨_, true, by simpa using h.symm⟩
      · split at h
        · exact ⟨_, true, by simpa using h.symm⟩
        · simp at h

/-- A skippable failure makes the loop go on with the next candidate. -/
theorem fetchLoop_skip (W : World) (u : URL) (us : List URL) (err : Option GoError)
    (w : Writer) (s : Sys) (e : GoError)
    (h : (fetchOne W u w s).1 = some (.FetchError e false)) :
    fetchLoop W (u :: us) err w s = fetchLoop W us (some (.FetchError e false)) w (s.asked [u]) := by
  simp only [fetchLoop, fetchOne_skip W u w s e h w s]

/-- A fatal failure ends the loop. -/
theorem fetchLoop_fatal (W : World) (u : URL) (us : List URL) (err : Option GoError)
    (w : Writer) (s : Sys) (e : GoError)
    (h : (fetchOne W u w s).1 = some (.FetchError e true)) :
    fetchLoop W (u :: us) err w s = fetchOne W u w s := by
  rcases hf : fetchOne W u w s with ⟨r, w1, s1⟩
  rw [hf] at h
  dsimp only at h
  subst h
  simp only [fetchLoop, hf]

/-- A success ends the loop. -/
theorem fetchLoop_success (W : World) (u : URL) (us : List URL) (err : Option GoError)
    (w : Writer) (s : Sys) (h : (fetchOne W u w s).1 = none) :
    fetchLoop W (u :: us) err w s = fetchOne W u w s := by
  rcases hf : fetchOne W u w s with ⟨r, w1, s1⟩
  rw [hf] at h
  dsimp only at h
  subst h
  simp only [fetchLoop, hf]

/-- Candidates that fail skippably are passed over: the loop reaches the
candidate after them with the writer untouched. -/
theorem fetchLoop_skip_all (W : World) (pre : List URL) (rest : List URL) (err : Option GoError)
    (w : Writer) (s : Sys)
    (hpre : ∀ v ∈ pre, ∃ e, (fetchOne W v w s).1 = some (.FetchError e false)) :
    ∃ err2, fetchLoop W (pre ++ rest) err w s = fetchLoop W rest err2 w (s.asked pre)
      ∧ (pre = [] → err2 = err)
      ∧ (∀ v, pre.getLast? = some v → err2 = (fetchOne W v w s).1) := by
  induction pre generalizing err s with
  | nil => exact ⟨err, by simp [Sys.asked_nil], fun _ => rfl, by simp⟩
  | cons v vs ih =>
    obtain ⟨e, he⟩ := hpre v (List.mem_cons_self _ _)
    have hvs : ∀ x ∈ vs, ∃ e, (fetchOne W x w (s.asked [v])).1 = some (.FetchError e false) := by
      intro x hx
      obtain ⟨ex, hex⟩ := hpre x (List.mem_cons_of_mem _ hx)
      exact ⟨ex, by rw [fetchOne_skip W x w s ex hex w (s.asked [v])]⟩
    obtain ⟨err2, h1, h2, h3⟩ := ih (some (.FetchError e false)) (s.asked [v]) hvs
    refine ⟨err2, ?_, by simp, ?_⟩
    · rw [List.cons_append, fetchLoop_skip W v (vs ++ rest) err w s e he, h1, Sys.asked_asked]
      rfl
    · intro x hx
      cases vs with
      | nil =>
        simp at hx
        subst hx
        rw [h2 rfl, he]
      | cons y ys =>
        rw [List.getLast?_cons_cons] at hx
        rw [h3 x hx]
        obtain ⟨ex, hex⟩ := hpre x (by
          have := List.mem_of_getLast?_eq_some hx
          exact List.mem_cons_of_mem _ this)
        rw [fetchOne_skip W x w s ex hex w (s.asked [v]), hex]

theorem fetchOne_indep (W : World) (u : URL) (w : Writer) (s s2 : Sys) :
    (fetchOne W u w s).1 = (fetchOne W u w s2).1
      ∧ (fetchOne W u w s).2.1 = (fetchOne W u w s2).2.1 := by
  cases hc : W.client u with
  | error err =>
    rw [fetchOne_transport W u w s err hc, fetchOne_transport W u w s2 err hc]
    exact ⟨rfl, rfl⟩
  | ok res =>
    by_cases hs : res.StatusCode ≥ 400 ∧ res.StatusCode < 600
    · rw [fetchOne_status W u w s res hc hs, fetchOne_status W u w s2 res hc hs]
      exact ⟨rfl, rfl⟩
    · rw [fetchOne_copy W u w s res hc hs, fetchOne_copy W u w s2 res hc hs]
      exact ⟨rfl, rfl⟩

theorem ioCopy_count_le (w : Writer) (r : Body) : (ioCopy w r).2.1 ≤ r.bytes.length := by
  unfold ioCopy
  cases hf : w.fail with
  | none => simp
  | some p =>
    obtain ⟨room, e⟩ := p
    dsimp only
    split
    · simp
    · dsimp only; omega

theorem LimitReader_length (r : Body) (n : Nat) : (LimitReader r n).bytes.length ≤ n := by
  simp [LimitReader]

/-- A copy of the limited body that ends without error below the limit has
written the whole body. -/
theorem ioCopy_limit_clean (w : Writer) (b : Body) (n : Nat)
    (herr : (ioCopy w (LimitReader b n)).2.2 = none)
    (hn : (ioCopy w (LimitReader b n)).2.1 ≠ n) :
    (ioCopy w (LimitReader b n)).1.data = w.data ++ b.bytes ∧ b.bytes.length < n ∧ b.err = none := by
  unfold ioCopy at herr hn ⊢
  have key : ∀ (m : Nat) (e : Option GoError), m = (LimitReader b n).bytes.length →
      e = (LimitReader b n).err → e = none → m ≠ n →
      (LimitReader b n).bytes = b.bytes ∧ b.bytes.length < n ∧ b.err = none := by
    intro m e hm he he0 hmn
    simp only [LimitReader, List.length_take] at hm he ⊢
    have hlt : b.bytes.length < n := by omega
    refine ⟨List.take_of_length_le (by omega), hlt, ?_⟩
    rw [if_pos hlt] at he
    rw [← he, he0]
  cases hf : w.fail with
  | none =>
    rw [hf] at herr hn
    dsimp only at herr hn ⊢
    obtain ⟨h1, h2, h3⟩ := key _ _ rfl rfl herr hn
    exact ⟨by rw [h1], h2, h3⟩
  | some p =>
    obtain ⟨room, e⟩ := p
    rw [hf] at herr hn
    dsimp only at herr hn ⊢
    by_cases hr : (LimitReader b n).bytes.length ≤ room
    · rw [if_pos hr] at herr hn ⊢
      dsimp only at herr hn ⊢
      obtain ⟨h1, h2, h3⟩ := key _ _ rfl rfl herr hn
      exact ⟨by rw [h1], h2, h3⟩
    · rw [if_neg hr] at herr
      simp at herr

/-- A body that reaches the limit, copied into a writer that takes it, gives
exactly the limit as count and no error. -/
theorem ioCopy_limit_full (w : Writer) (b : Body) (n : Nat)
    (hb : n ≤ b.bytes.length) (hw : w.takes n) :
    (ioCopy w (LimitReader b n)).2.1 = n ∧ (ioCopy w (LimitReader b n)).2.2 = none := by
  have hlen : (LimitReader b n).bytes.length = n := by
    simp [LimitReader, List.length_take]; omega
  have herr : (LimitReader b n).err = none := by
    simp only [LimitReader]; rw [if_neg (by omega)]
  unfold Writer.takes at hw
  unfold ioCopy
  cases hf : w.fail with
  | none => exact ⟨hlen, herr⟩
  | some p =>
    obtain ⟨room, e⟩ := p
    rw [hf] at hw
    dsimp only at hw ⊢
    rw [if_pos (by omega)]
    exact ⟨hlen, herr⟩

/-- The count of a copy whose count is the limit came without error. -/
theorem ioCopy_limit_count (w : Writer) (b : Body) (n : Nat)
    (hn : (ioCopy w (LimitReader b n)).2.1 = n) :
    (ioCopy w (LimitReader b n)).2.2 = none := by
  have hle : (LimitReader b n).bytes.length ≤ n := LimitReader_length b n
  have hcnt := ioCopy_count_le w (LimitReader b n)
  have hlen : (LimitReader b n).bytes.length = n := by omega
  have hb : ¬ b.bytes.length < n := by
    simp only [LimitReader, List.length_take] at hlen; omega
  have herr : (LimitReader b n).err = none := by
    simp only [LimitReader]; rw [if_neg hb]
  unfold ioCopy at hn ⊢
  cases hf : w.fail with
  | none => exact herr
  | some p =>
    obtain ⟨room, e⟩ := p
    rw [hf] at hn
    dsimp only at hn ⊢
    by_cases hr : (LimitReader b n).bytes.length ≤ room
    · rw [if_pos hr]; exact herr
    · rw [if_neg hr] at hn
      dsimp only at hn
      omega

/-- A writer that fails gives a copy error. -/
theorem ioCopy_error_of_not_takes (w : Writer) (r : Body) (h : ¬ w.takes r.bytes.length) :
    ∃ e, (ioCopy w r).2.2 = some e := by
  unfold Writer.takes at h
  unfold ioCopy
  cases hf : w.fail with
  | none => rw [hf] at h; exact absurd trivial h
  | some p =>
    obtain ⟨room, e⟩ := p
    rw [hf] at h
    dsimp only at h ⊢
    rw [if_neg h]
    exact ⟨e, rfl⟩

/-- Where the loop of Fetch returns nil, a candidate succeeded after skippable
failures only (or no candidate was there and the error so far was nil). -/
theorem fetchLoop_none (W : World) (urls : List URL) (err : Option GoError) (w : Writer) (s : Sys)
    (h : (fetchLoop W urls err w s).1 = none) :
    (urls = [] ∧ err = none) ∨
      ∃ pre u post, urls = pre ++ u :: post
        ∧ (∀ v ∈ pre, ∃ e, (fetchOne W v w s).1 = some (.FetchError e false))
        ∧ (fetchOne W u w s).1 = none := by
  induction urls generalizing err s with
  | nil => left; exact ⟨rfl, by simpa [fetchLoop] using h⟩
  | cons u us ih =>
    right
    cases hr : (fetchOne W u w s).1 with
    | none => exact ⟨[], u, us, rfl, by simp, hr⟩
    | some e =>
      obtain ⟨e0, b, he⟩ := fetchOne_error W u w s e hr
      subst he
      cases b with
      | true =>
        rw [fetchLoop_fatal W u us err w s e0 hr, hr] at h
        simp at h
      | false =>
        rw [fetchLoop_skip W u us err w s e0 hr] at h
        rcases ih _ _ h with ⟨_, h2⟩ | ⟨pre, x, post, h1, h2, h3⟩
        · simp at h2
        · refine ⟨u :: pre, x, post, by rw [h1]; rfl, ?_, ?_⟩
          · intro v hv
            rcases List.mem_cons.mp hv with hv | hv
            · subst hv; exact ⟨e0, hr⟩
            · obtain ⟨ev, hev⟩ := h2 v hv
              exact ⟨ev, by rw [(fetchOne_indep W v w s (s.asked [u])).1]; exact hev⟩
          · rw [(fetchOne_indep W x w s (s.asked [u])).1]; exact h3

theorem parseAll_length (parse : String → Except GoError URL) (l : List String) (urls : List URL)
    (h : parseAll parse l = .ok urls) : urls.length = l.length := by
  induction l generalizing urls with
  | nil => simp [parseAll] at h; subst h; rfl
  | cons x xs ih =>
    unfold parseAll at h
    cases hp : parse x with
    | error e => rw [hp] at h; simp at h
    | ok u =>
      rw [hp] at h
      dsimp only at h
      cases hr : parseAll parse xs with
      | error e => rw [hr] at h; simp at h
      | ok us =>
        rw [hr] at h
        simp only [Except.ok.injEq] at h
        subst h
        simp [ih us hr]

theorem candidateStrings_length (k : Key) :
    (candidateStrings k).length = if k.Lang = "" ∨ k.Lang = "en" then 4 else 6 := by
  unfold candidateStrings
  dsimp only
  split <;> simp

theorem buildCandidateURLs_ne_nil (parse : String → Except GoError URL) (k : Key) (urls : List URL)
    (h : buildCandidateURLs parse k = .ok urls) : urls ≠ [] := by
  have h1 := parseAll_length parse _ urls h
  rw [candidateStrings_length] at h1
  intro h0
  subst h0
  split at h1 <;> simp at h1

theorem candidateStrings_eq (k : Key) : candidateStrings k = specLocations k := by
  have h : ∀ a : String, a ++ "." ++ "en" = a ++ ".en" := by
    intro a; rw [String.append_assoc]; rfl
  unfold candidateStrings specLocations
  dsimp only
  split <;> simp [h]

theorem parseAll_map (parse : String → Except GoError URL) (f : String → URL) (l : List String)
    (h : ∀ x ∈ l, parse x = .ok (f x)) : parseAll parse l = .ok (l.map f) := by
  induction l with
  | nil => rfl
  | cons x xs ih =>
    unfold parseAll
    rw [h x (List.mem_cons_self _ _), ih (fun y hy => h y (List.mem_cons_of_mem _ hy))]
    rfl

/-- A list that parses is the list of the parses of its strings, in order. -/
theorem parseAll_forall₂ (parse : String → Except GoError URL) (l : List String) (urls : List URL)
    (h : parseAll parse l = .ok urls) : List.Forall₂ (fun x u => parse x = .ok u) l urls := by
  induction l generalizing urls with
  | nil =>
    simp only [parseAll, Except.ok.injEq] at h
    subst h
    exact List.Forall₂.nil
  | cons x xs ih =>
    unfold parseAll at h
    cases hp : parse x with
    | error e => rw [hp] at h; simp at h
    | ok u =>
      rw [hp] at h
      dsimp only at h
      cases hr : parseAll parse xs with
      | error e => rw [hr] at h; simp at h
      | ok us =>
        rw [hr] at h
        simp only [Except.ok.injEq] at h
        subst h
        exact List.Forall₂.cons hp (ih us hr)

/-- Every string of a list that parses does parse. -/
theorem parseAll_ok_mem (parse : String → Except GoError URL) (l : List String) (urls : List URL)
    (h : parseAll parse l = .ok urls) : ∀ x ∈ l, ∃ u, parse x = .ok u := by
  have h2 := parseAll_forall₂ parse l urls h
  clear h
  intro x hx
  induction h2 with
  | nil => simp at hx
  | cons hp _ ih =>
    rcases List.mem_cons.mp hx with hx | hx
    · subst hx; exact ⟨_, hp⟩
    · exact ih hx

/-- The first string that does not parse ends the loop with its error. -/
theorem parseAll_first_error (parse : String → Except GoError URL) (pre post : List String)
    (x : String) (e : GoError) (hpre : ∀ y ∈ pre, ∃ u, parse y = .ok u)
    (hx : parse x = .error e) : parseAll parse (pre ++ x :: post) = .error e := by
  induction pre with
  | nil =>
    rw [List.nil_append, parseAll, hx]
  | cons y ys ih =>
    obtain ⟨u, hu⟩ := hpre y (List.mem_cons_self _ _)
    rw [List.cons_append, parseAll, hu]
    dsimp only
    rw [ih (fun z hz => hpre z (List.mem_cons_of_mem _ hz))]

theorem parseAll_error (parse : String → Except GoError URL) (l : List String) (e : GoError)
    (h : parseAll parse l = .error e) :
    ∃ pre x post, l = pre ++ x :: post ∧ parse x = .error e ∧ ∀ y ∈ pre, ∃ u, parse y = .ok u := by
  induction l with
  | nil => simp [parseAll] at h
  | cons x xs ih =>
    unfold parseAll at h
    cases hp : parse x with
    | error e1 =>
      rw [hp] at h
      simp only [Except.error.injEq] at h
      subst h
      exact ⟨[], x, xs, rfl, hp, by simp⟩
    | ok u =>
      rw [hp] at h
      dsimp only at h
      cases hr : parseAll parse xs with
      | error e1 =>
        rw [hr] at h
        simp only [Except.error.injEq] at h
        subst h
        obtain ⟨pre, y, post, h1, h2, h3⟩ := ih hr
        refine ⟨x :: pre, y, post, by rw [h1]; rfl, h2, ?_⟩
        intro z hz
        rcases List.mem_cons.mp hz with hz | hz
        · subst hz; exact ⟨u, hp⟩
        · exact h3 z hz
      | ok us => rw [hr] at h; simp at h

/-- When every candidate fails skippably the loop returns the failure of the last one. -/
theorem fetchLoop_exhausted (W : World) (urls : List URL) (last : URL) (w : Writer) (s : Sys)
    (hlast : urls.getLast? = some last)
    (hskip : ∀ v ∈ urls, ∃ e, (fetchOne W v w s).1 = some (.FetchError e false)) :
    fetchLoop W urls none w s = ((fetchOne W last w s).1, w, s.asked urls) := by
  obtain ⟨err2, h1, _, h3⟩ := fetchLoop_skip_all W urls [] none w s hskip
  rw [List.append_nil] at h1
  rw [h1, h3 last hlast]
  rfl

theorem parseAll_getLast (parse : String → Except GoError URL) (l : List String) (urls : List URL)
    (x : String) (h : parseAll parse l = .ok urls) (hx : l.getLast? = some x) :
    ∃ u, urls.getLast? = some u ∧ parse x = .ok u := by
  induction l generalizing urls with
  | nil => simp at hx
  | cons y ys ih =>
    unfold parseAll at h
    cases hp : parse y with
    | error e => rw [hp] at h; simp at h
    | ok u =>
      rw [hp] at h
      dsimp only at h
      cases hr : parseAll parse ys with
      | error e => rw [hr] at h; simp at h
      | ok us =>
        rw [hr] at h
        simp only [Except.ok.injEq] at h
        subst h
        cases ys with
        | nil =>
          simp [parseAll] at hr
          subst hr
          simp at hx
          subst hx
          exact ⟨u, by simp, hp⟩
        | cons z zs =>
          rw [List.getLast?_cons_cons] at hx
          obtain ⟨v, hv1, hv2⟩ := ih us hr hx
          refine ⟨v, ?_, hv2⟩
          have hne : us ≠ [] := by
            intro h0; subst h0; simp at hv1
          obtain ⟨a, as, has⟩ := List.exists_cons_of_ne_nil hne
          subst has
          rw [List.getLast?_cons_cons]
          exact hv1

theorem candidateStrings_getLast (k : Key) :
    (candidateStrings k).getLast? = some (server ++ "/" ++ k.Page ++ ".gz") := by
  unfold candidateStrings
  dsimp only
  rw [List.getLast?_append]
  simp

/-- Fetch when every candidate fails skippably. -/
theorem Fetch_exhausted (W : World) (k : Key) (w : Writer) (s : Sys) (urls : List URL)
    (hurls : buildCandidateURLs W.parse k = .ok urls)
    (hskip : ∀ v ∈ urls, ∃ e, (fetchOne W v w s).1 = some (.FetchError e false)) :
    ∃ last e, urls.getLast? = some last
      ∧ W.parse (server ++ "/" ++ k.Page ++ ".gz") = .ok last
      ∧ (fetchOne W last w s).1 = some (.FetchError e false)
      ∧ Fetch W k w s = (some (.FetchError e false), w, s.asked urls) := by
  obtain ⟨last, h1, h2⟩ := parseAll_getLast W.parse _ urls _ hurls (candidateStrings_getLast k)
  obtain ⟨e, he⟩ := hskip last (List.mem_of_getLast?_eq_some h1)
  refine ⟨last, e, h1, h2, he, ?_⟩
  unfold Fetch
  rw [hurls]
  dsimp only
  rw [fetchLoop_exhausted W urls last w s h1 hskip, he]

/-- The function get when the cache has a fresh entry or the refresh fails. -/
theorem get_of_refresh_error (W : World) (k : Key) (s s1 : Sys) (c : Option Stream)
    (cerr rerr : GoError)
    (hc : cache.Get W k defaultCacheTTL s = (c, some cerr))
    (hr : refresh W k s = (.error rerr, s1)) :
    get W k s =
      if cerr = .CacheStaleError then
        ((c, none), ⟨s1.files, s1.requests, s1.log ++ [.fallingBack rerr]⟩)
      else ((none, some rerr), s1) := by
  unfold get
  rw [hc]
  dsimp only
  rw [hr]

theorem refresh_of_fetch_error (W : World) (k : Key) (s s1 : Sys) (err : GoError)
    (h : fetch W k s = (.error err, s1)) : refresh W k s = (.error err, s1) := by
  unfold refresh
  rw [h]

theorem fetch_of_Fetch_error (W : World) (k : Key) (s s1 : Sys) (f w1 : Writer) (err : GoError)
    (hf : mktemp W = .ok f) (h : Fetch W k f s = (some err, w1, s1)) :
    fetch W k s = (.error err, s1) := by
  unfold fetch
  rw [hf]
  dsimp only
  rw [h]

/-- The refresh fails when every candidate fails skippably. -/
theorem refresh_fails_of_skips (W : World) (k : Key) (s : Sys)
    (hskip : ∀ urls, buildCandidateURLs W.parse k = .ok urls →
      ∀ u ∈ urls, ∀ w, ∃ e, (fetchOne W u w s).1 = some (.FetchError e false)) :
    ∃ rerr s1, refresh W k s = (.error rerr, s1) := by
  cases hf : mktemp W with
  | error err =>
    refine ⟨err, s, refresh_of_fetch_error W k s s err ?_⟩
    unfold fetch
    rw [hf]
  | ok f =>
    cases hb : buildCandidateURLs W.parse k with
    | error err =>
      refine ⟨err, s, refresh_of_fetch_error W k s s err
        (fetch_of_Fetch_error W k s s f f err hf ?_)⟩
      unfold Fetch
      rw [hb]
    | ok urls =>
      obtain ⟨last, e, _, _, _, h⟩ :=
        Fetch_exhausted W k f s urls hb (fun v hv => hskip urls hb v hv f)
      exact ⟨_, _, refresh_of_fetch_error W k s _ _ (fetch_of_Fetch_error W k s _ f f _ hf h)⟩

/-- Fetch when a candidate succeeds after skippable failures only. -/
theorem Fetch_success (W : World) (k : Key) (w : Writer) (s : Sys) (pre post : List URL) (u : URL)
    (hurls : buildCandidateURLs W.parse k = .ok (pre ++ u :: post))
    (hpre : ∀ v ∈ pre, ∃ e, (fetchOne W v w s).1 = some (.FetchError e false))
    (hu : (fetchOne W u w s).1 = none) :
    Fetch W k w s = fetchOne W u w (s.asked pre) := by
  obtain ⟨err2, h1, _, _⟩ := fetchLoop_skip_all W pre (u :: post) none w s hpre
  unfold Fetch
  rw [hurls]
  dsimp only
  rw [h1, fetchLoop_success W u post err2 w (s.asked pre)
    (by rw [← (fetchOne_indep W u w s (s.asked pre)).1]; exact hu)]

/-- A clean answer below the limit, copied into a writer that does not fail. -/
theorem fetchOne_ok (W : World) (u : URL) (s : Sys) (d : List Byte) (status : String) (code : Int)
    (B : List Byte) (hc : W.client u = .ok ⟨status, code, ⟨B, none⟩⟩)
    (hcode : ¬ (code ≥ 400 ∧ code < 600)) (hB : B.length < bodyLengthLimit) :
    fetchOne W u ⟨d, none⟩ s = (none, ⟨d ++ B, none⟩, s.asked [u]) := by
  rw [fetchOne_copy W u _ s _ hc hcode]
  have ht : List.take bodyLengthLimit B = B := List.take_of_length_le (by omega)
  have hn : B.length ≠ bodyLengthLimit := by omega
  simp [ioCopy, LimitReader, copyVerdict, ht, hn]

theorem cache_path_home (W : World) (k : Key) (h : String) (hh : W.home = .ok h) :
    cache.path W k
      = .ok (filepathJoin [filepathJoin [h, ".dman/cache"], k.Dist, k.Lang, k.Page]) := by
  simp [Cache.path, cache, Cache.defaultRoot, hh]

/-- Cache.Get on an entry that is not there. -/
theorem Cache_Get_absent (W : World) (c : Cache) (k : Key) (ttl : Int) (s : Sys) (p : String)
    (hW : W.fault .cacheOpen = none) (hp : c.path W k = .ok p) (hf : s.files p = none) :
    c.Get W k ttl s = (none, some .CacheNotFoundError) := by
  simp [Cache.Get, hp, osOpen, hW, hf, GoError.isNotExist]

/-- Put into a cache without the entry, when no file operation fails. -/
theorem Cache_Put_fresh (W : World) (c : Cache) (k : Key) (r : Stream) (s : Sys) (p : String)
    (hW : W.nominal) (hp : c.path W k = .ok p) (hf : s.files p = none) :
    c.Put W k r s =
      (none, ⟨r.data, r.pos + r.content.length, r.modTime⟩,
        ⟨fun q => if q = p then some ⟨r.content, W.now⟩ else s.files q, s.requests, s.log⟩) := by
  obtain ⟨h1, _, h3⟩ := hW
  simp [Cache.Put, hp, osRemove, hf, GoError.isNotExist, h1, Cache.putCreate, ioCopy, h3]

theorem splitSlash_ne_nil (a : List Char) : splitSlash a ≠ [] := by
  cases a with
  | nil => simp [splitSlash]
  | cons c cs =>
    unfold splitSlash
    split
    · simp
    · split <;> simp

theorem splitSlash_cons (c : Char) (cs : List Char) :
    splitSlash (c :: cs) =
      if c = '/' then [] :: splitSlash cs
      else
        match splitSlash cs with
        | [] => [[c]]
        | h :: t => (c :: h) :: t := by
  rw [splitSlash]

theorem splitSlash_append (a b : List Char) :
    splitSlash (a ++ '/' :: b) = splitSlash a ++ splitSlash b := by
  induction a with
  | nil => rw [List.nil_append, splitSlash_cons, if_pos rfl]; rfl
  | cons c cs ih =>
    rw [List.cons_append, splitSlash_cons c (cs ++ '/' :: b), splitSlash_cons c cs, ih]
    by_cases hc : c = '/'
    · rw [if_pos hc, if_pos hc]; rfl
    · rw [if_neg hc, if_neg hc]
      cases hs : splitSlash cs with
      | nil => exact absurd hs (splitSlash_ne_nil cs)
      | cons h t => rfl

theorem splitSlash_plain (a : List Char) (h : '/' ∉ a) : splitSlash a = [a] := by
  induction a with
  | nil => rfl
  | cons c cs ih =>
    have hc : c ≠ '/' := fun hc => h (by rw [hc]; exact List.mem_cons_self _ _)
    have hcs : '/' ∉ cs := fun hm => h (List.mem_cons_of_mem _ hm)
    rw [splitSlash_cons, if_neg hc, ih hcs]

theorem cleanStep_plain (rooted : Bool) (st : List (List Char)) (x : String) (h : plainName x) :
    cleanStep rooted st x.data = x.data :: st := by
  obtain ⟨h1, _, h3, h4⟩ := h
  unfold cleanStep
  rw [if_neg (by simp [h1, h3]), if_neg h4]

theorem joinSlash_append_three (A : List (List Char)) (d l p : List Char) :
    joinSlash (A ++ [d, l, p])
      = (if A = [] then [] else joinSlash A ++ ['/']) ++ d ++ '/' :: l ++ '/' :: p := by
  induction A with
  | nil => simp [joinSlash]
  | cons a as ih =>
    cases as with
    | nil => simp [joinSlash]
    | cons b bs =>
      have : joinSlash (a :: b :: bs ++ [d, l, p]) = a ++ '/' :: joinSlash (b :: bs ++ [d, l, p]) := by
        simp [joinSlash]
      rw [this, ih]
      simp [joinSlash]

/-- Clean of a non-empty root followed by three plain names. -/
theorem Clean_root_plain (root : List Char) (hroot : root ≠ []) (d l p : String)
    (hd : plainName d) (hl : plainName l) (hp : plainName p) :
    Clean (root ++ '/' :: d.data ++ '/' :: l.data ++ '/' :: p.data)
      = rootDir root ++ d.data ++ '/' :: l.data ++ '/' :: p.data := by
  obtain ⟨c, cs, rfl⟩ := List.exists_cons_of_ne_nil hroot
  have hsplit : splitSlash (c :: cs ++ '/' :: d.data ++ '/' :: l.data ++ '/' :: p.data)
      = splitSlash (c :: cs) ++ [d.data, l.data, p.data] := by
    have e : c :: cs ++ '/' :: d.data ++ '/' :: l.data ++ '/' :: p.data
        = (c :: cs) ++ '/' :: (d.data ++ '/' :: (l.data ++ '/' :: p.data)) := by simp
    rw [e, splitSlash_append, splitSlash_append, splitSlash_append,
      splitSlash_plain _ hd.2.1, splitSlash_plain _ hl.2.1, splitSlash_plain _ hp.2.1]
    simp
  have hfold : ∀ r, (splitSlash (c :: cs) ++ [d.data, l.data, p.data]).foldl (cleanStep r) []
      = p.data :: l.data :: d.data :: (splitSlash (c :: cs)).foldl (cleanStep r) [] := by
    intro r
    rw [List.foldl_append]
    simp only [List.foldl_cons, List.foldl_nil]
    rw [cleanStep_plain r _ d hd, cleanStep_plain r _ l hl, cleanStep_plain r _ p hp]
  have hclean : Clean (c :: cs ++ '/' :: d.data ++ '/' :: l.data ++ '/' :: p.data)
      = (if c = '/' then ['/'] else [])
          ++ joinSlash (((splitSlash (c :: cs)).foldl (cleanStep (decide (c = '/'))) []).reverse
              ++ [d.data, l.data, p.data]) := by
    have e : c :: cs ++ '/' :: d.data ++ '/' :: l.data ++ '/' :: p.data
        = c :: (cs ++ '/' :: d.data ++ '/' :: l.data ++ '/' :: p.data) := by simp
    rw [e]
    unfold Clean
    dsimp only
    rw [← e, hsplit, hfold]
    by_cases hc : c = '/'
    · simp [hc]
    · simp [hc]
  rw [hclean, joinSlash_append_three]
  unfold rootDir
  simp

theorem cleanStep_inv (r : Bool) (st : List (List Char)) (e : List Char)
    (h : ∀ x ∈ st, x ≠ []) : ∀ x ∈ cleanStep r st e, x ≠ [] := by
  unfold cleanStep
  split
  · exact h
  · rename_i h1
    split
    · rename_i h2
      cases st with
      | nil =>
        dsimp only
        split
        · simp
        · intro x hx
          simp at hx
          rw [hx, h2]; simp
      | cons top rest =>
        dsimp only
        split
        · intro x hx
          rcases List.mem_cons.mp hx with hx | hx
          · rw [hx, h2]; simp
          · exact h x hx
        · intro x hx
          exact h x (List.mem_cons_of_mem _ hx)
    · intro x hx
      rcases List.mem_cons.mp hx with hx | hx
      · rw [hx]; intro h0; exact h1 (Or.inl h0)
      · exact h x hx

theorem foldl_cleanStep_inv (r : Bool) (l : List (List Char)) (st : List (List Char))
    (h : ∀ x ∈ st, x ≠ []) : ∀ x ∈ l.foldl (cleanStep r) st, x ≠ [] := by
  induction l generalizing st with
  | nil => exact h
  | cons e es ih => exact ih _ (cleanStep_inv r st e h)

theorem joinSlash_ne_nil (A : List (List Char)) (hA : A ≠ []) (h : ∀ x ∈ A, x ≠ []) :
    joinSlash A ≠ [] := by
  cases A with
  | nil => exact absurd rfl hA
  | cons a as =>
    cases as with
    | nil => simpa [joinSlash] using h a (List.mem_cons_self _ _)
    | cons b bs => simp [joinSlash]

theorem Clean_ne_nil (a : List Char) : Clean a ≠ [] := by
  unfold Clean
  cases a with
  | nil => simp
  | cons c cs =>
    dsimp only
    split
    · simp
    · split
      · simp
      · rename_i h
        apply joinSlash_ne_nil
        · simpa using h
        · intro x hx
          exact foldl_cleanStep_inv _ _ [] (by simp) x (List.mem_reverse.mp hx)

theorem filepathJoin_cons (e : String) (es : List String) (he : e ≠ "") :
    filepathJoin (e :: es) = ⟨Clean (joinSlash ((e :: es).map String.data))⟩ := by
  rw [filepathJoin, if_neg he]

theorem filepathJoin_ne_empty (es : List String) (h : ∃ e ∈ es, e ≠ "") :
    filepathJoin es ≠ "" := by
  induction es with
  | nil => simp at h
  | cons e es ih =>
    by_cases he : e = ""
    · rw [filepathJoin, if_pos he]
      apply ih
      obtain ⟨x, hx, hx0⟩ := h
      rcases List.mem_cons.mp hx with hx | hx
      · exact absurd (hx ▸ he) hx0
      · exact ⟨x, hx, hx0⟩
    · rw [filepathJoin_cons e es he]
      intro h0
      have := congrArg String.data h0
      exact Clean_ne_nil _ this

theorem Cache_path_root (W : World) (c : Cache) (k : Key) :
    c.path W k =
      match c.root W with
      | .error err => .error err
      | .ok root => .ok (filepathJoin [root, k.Dist, k.Lang, k.Page]) := by
  unfold Cache.path Cache.root
  split
  · cases c.defaultRoot W <;> rfl
  · rfl

theorem Cache_root_ne_empty (W : World) (c : Cache) (root : String) (h : c.root W = .ok root) :
    root ≠ "" := by
  unfold Cache.root at h
  split at h
  · unfold Cache.defaultRoot at h
    cases hh : W.home with
    | error e => rw [hh] at h; simp at h
    | ok hd =>
      rw [hh] at h
      simp only [Except.ok.injEq] at h
      rw [← h]
      exact filepathJoin_ne_empty _ ⟨".dman/cache", by simp, by decide⟩
  · rename_i hne
    simp only [Except.ok.injEq] at h
    rw [← h]; exact hne

theorem Cache_path_plain (W : World) (c : Cache) (k : Key) (root p : String)
    (hroot : c.root W = .ok root) (hk : k.plain) (hp : c.path W k = .ok p) :
    p.data = rootDir root.data ++ k.Dist.data ++ '/' :: k.Lang.data ++ '/' :: k.Page.data := by
  rw [Cache_path_root, hroot] at hp
  simp only [Except.ok.injEq] at hp
  have hne := Cache_root_ne_empty W c root hroot
  have hne2 : root.data ≠ [] := by
    intro h0
    apply hne
    exact String.ext h0
  rw [filepathJoin_cons _ _ hne] at hp
  rw [← hp]
  have e : joinSlash (List.map String.data [root, k.Dist, k.Lang, k.Page])
      = root.data ++ '/' :: k.Dist.data ++ '/' :: k.Lang.data ++ '/' :: k.Page.data := by
    simp [joinSlash]
  rw [e]
  exact Clean_root_plain root.data hne2 k.Dist k.Lang k.Page hk.2.1 hk.2.2 hk.1

theorem sep_split_unique (a a2 b b2 : List Char) (ha : '/' ∉ a) (ha2 : '/' ∉ a2)
    (h : a ++ '/' :: b = a2 ++ '/' :: b2) : a = a2 ∧ b = b2 := by
  induction a generalizing a2 with
  | nil =>
    cases a2 with
    | nil => simpa using h
    | cons x xs =>
      simp at h
      exact absurd (h.1 ▸ List.mem_cons_self _ _ : '/' ∈ x :: xs) ha2
  | cons y ys ih =>
    cases a2 with
    | nil =>
      simp at h
      exact absurd (h.1 ▸ List.mem_cons_self _ _ : '/' ∈ y :: ys) ha
    | cons x xs =>
      simp only [List.cons_append, List.cons.injEq] at h
      obtain ⟨h1, h2⟩ := ih xs (fun hm => ha (List.mem_cons_of_mem _ hm))
        (fun hm => ha2 (List.mem_cons_of_mem _ hm)) h.2
      exact ⟨by rw [h.1, h1], h2⟩

theorem splitSlash_no_sep (a : List Char) : ∀ e ∈ splitSlash a, '/' ∉ e := by
  induction a with
  | nil => simp [splitSlash]
  | cons c cs ih =>
    rw [splitSlash_cons]
    by_cases hc : c = '/'
    · rw [if_pos hc]
      intro e he
      rcases List.mem_cons.mp he with he | he
      · rw [he]; simp
      · exact ih e he
    · rw [if_neg hc]
      cases hs : splitSlash cs with
      | nil => exact absurd hs (splitSlash_ne_nil cs)
      | cons h t =>
        rw [hs] at ih
        intro e he
        rcases List.mem_cons.mp he with he | he
        · rw [he]
          intro hm
          rcases List.mem_cons.mp hm with hm | hm
          · exact hc hm.symm
          · exact ih h (List.mem_cons_self _ _) hm
        · exact ih e (List.mem_cons_of_mem _ he)

theorem cleanStep_kept (r : Bool) (st : List (List Char)) (e : List Char)
    (he : '/' ∉ e) (h : ∀ x ∈ st, keptElem x) : ∀ x ∈ cleanStep r st e, keptElem x := by
  unfold cleanStep
  split
  · exact h
  · rename_i h1
    split
    · rename_i h2
      have hk : keptElem e := ⟨fun h0 => h1 (Or.inl h0), fun h0 => h1 (Or.inr h0), he⟩
      cases st with
      | nil =>
        dsimp only
        split
        · simp
        · intro x hx
          rw [List.mem_singleton.mp hx]; exact hk
      | cons top rest =>
        dsimp only
        split
        · intro x hx
          rcases List.mem_cons.mp hx with hx | hx
          · rw [hx]; exact hk
          · exact h x hx
        · intro x hx
          exact h x (List.mem_cons_of_mem _ hx)
    · intro x hx
      rcases List.mem_cons.mp hx with hx | hx
      · rw [hx]; exact ⟨fun h0 => h1 (Or.inl h0), fun h0 => h1 (Or.inr h0), he⟩
      · exact h x hx

theorem foldl_cleanStep_kept (r : Bool) (l : List (List Char)) (st : List (List Char))
    (hl : ∀ e ∈ l, '/' ∉ e) (h : ∀ x ∈ st, keptElem x) :
    ∀ x ∈ l.foldl (cleanStep r) st, keptElem x := by
  induction l generalizing st with
  | nil => exact h
  | cons e es ih =>
    exact ih _ (fun x hx => hl x (List.mem_cons_of_mem _ hx))
      (cleanStep_kept r st e (hl e (List.mem_cons_self _ _)) h)

/-- The join of kept elements is not empty, not `/` and not `.`. -/
theorem joinSlash_kept (A : List (List Char)) (hA : A ≠ []) (h : ∀ x ∈ A, keptElem x) :
    joinSlash A ≠ [] ∧ joinSlash A ≠ ['/'] ∧ joinSlash A ≠ ['.'] := by
  cases A with
  | nil => exact absurd rfl hA
  | cons a as =>
    obtain ⟨h1, h2, h3⟩ := h a (List.mem_cons_self _ _)
    obtain ⟨x, xs, rfl⟩ := List.exists_cons_of_ne_nil h1
    have hx : x ≠ '/' := fun hx => h3 (by rw [hx]; exact List.mem_cons_self _ _)
    cases as with
    | nil =>
      refine ⟨by simp [joinSlash], ?_, by simpa [joinSlash] using h2⟩
      simp only [joinSlash]
      intro h0
      simp only [List.cons.injEq] at h0
      exact hx h0.1
    | cons b bs =>
      refine ⟨by simp [joinSlash], ?_, ?_⟩
      · simp only [joinSlash, List.cons_append]
        intro h0
        simp only [List.cons.injEq] at h0
        exact hx h0.1
      · simp only [joinSlash, List.cons_append]
        intro h0
        simp only [List.cons.injEq] at h0
        have := h0.2
        simp at this

/-- What Join puts before the elements it adds to a root is the cleaned root
and a separator. -/
theorem rootDir_eq (root : List Char) (hroot : root ≠ []) :
    rootDir root = cleanRootSlash root := by
  obtain ⟨c, cs, rfl⟩ := List.exists_cons_of_ne_nil hroot
  have hk : ∀ x ∈ ((splitSlash (c :: cs)).foldl (cleanStep (decide (c = '/'))) []).reverse,
      keptElem x := by
    intro x hx
    exact foldl_cleanStep_kept _ _ [] (splitSlash_no_sep _) (by simp) x (List.mem_reverse.mp hx)
  unfold rootDir cleanRootSlash Clean
  dsimp only
  generalize (splitSlash (c :: cs)).foldl (cleanStep (decide (c = '/'))) [] = st at hk
  by_cases hst : st = []
  · subst hst
    by_cases hc : c = '/'
    · simp [hc, joinSlash]
    · simp [hc]
  · have hst2 : st.reverse ≠ [] := by simpa using hst
    obtain ⟨j1, j2, j3⟩ := joinSlash_kept _ hst2 hk
    by_cases hc : c = '/'
    · simp [hc, hst, j1]
    · simp [hc, hst, j2, j3]

theorem lsURLs_built : buildCandidateURLs urlParse lsKey = .ok lsURLs := by decide

/-- An answer with a status in 400..599 is a skippable failure. -/
theorem fetchOne_skips_of_status (W : World) (u : URL) (w : Writer) (s : Sys) (res : Response)
    (hc : W.client u = .ok res) (hs : res.StatusCode ≥ 400 ∧ res.StatusCode < 600) :
    ∃ e, (fetchOne W u w s).1 = some (.FetchError e false) :=
  ⟨_, by rw [fetchOne_status W u w s res hc hs]⟩

/-! ## The properties -/

/-- C1: when Cache.Get returns a stream together with CacheStaleError and
every candidate of the refresh fails with a skippable FetchError, the refresh
fails and get returns that stale stream with a nil error; the error of the
refresh is logged. -/
theorem get_falls_back_to_stale (W : World) (k : Key) (s : Sys) (c : Stream)
    (hc : cache.Get W k defaultCacheTTL s = (some c, some .CacheStaleError))
    (hskip : ∀ urls, buildCandidateURLs W.parse k = .ok urls →
      ∀ u ∈ urls, ∀ w, ∃ e, (fetchOne W u w s).1 = some (.FetchError e false)) :
    (get W k s).1 = (some c, none)
      ∧ ∃ rerr, (refresh W k s).1 = .error rerr
          ∧ (get W k s).2.log = (refresh W k s).2.log ++ [.fallingBack rerr] := by
  obtain ⟨rerr, s1, hr⟩ := refresh_fails_of_skips W k s hskip
  rw [get_of_refresh_error W k s s1 (some c) _ rerr hc hr, if_pos rfl, hr]
  exact ⟨rfl, rerr, rfl, rfl⟩

/-- C1 at a stale entry for `lsKey` and a server that answers 404 to everything. -/
theorem get_falls_back_to_stale_witness :
    (get absentWorld lsKey staleSys).1 = (some ⟨oldBody, 0, 0⟩, none)
      ∧ ∃ rerr, (refresh absentWorld lsKey staleSys).1 = .error rerr
          ∧ (get absentWorld lsKey staleSys).2.log
              = (refresh absentWorld lsKey staleSys).2.log ++ [.fallingBack rerr] :=
  get_falls_back_to_stale absentWorld lsKey staleSys ⟨oldBody, 0, 0⟩ (by decide)
    (fun _ _ u _ w =>
      fetchOne_skips_of_status absentWorld u w staleSys notFound rfl (by decide))

/-- C2, counterexample: with a stale entry for `lsKey` and a server whose
second candidate breaks off after two bytes, the Fetch of the refresh ends with
a fatal FetchError, and get returns the stale stream and a nil error. -/
theorem get_serves_stale_on_fatal_fetch :
    cache.Get brokenWorld lsKey defaultCacheTTL staleSys
        = (some ⟨oldBody, 0, 0⟩, some .CacheStaleError)
      ∧ mktemp brokenWorld = .ok ⟨[], none⟩
      ∧ (Fetch brokenWorld lsKey ⟨[], none⟩ staleSys).1
          = some (.FetchError (.osError "unexpected EOF" false) true)
      ∧ (get brokenWorld lsKey staleSys).1 = (some ⟨oldBody, 0, 0⟩, none) := by
  decide

/-- C2 (as amended): when the Fetch of the refresh ends with a fatal
FetchError and the cache entry is absent or unreadable (Cache.Get returns an
error that is not CacheStaleError), get returns that error and no stream; when
the entry is stale, get returns the stale stream with a nil error. -/
theorem get_on_fatal_fetch (W : World) (k : Key) (s s1 : Sys) (f w1 : Writer) (e : GoError)
    (hf : mktemp W = .ok f)
    (hfetch : Fetch W k f s = (some (.FetchError e true), w1, s1)) :
    (∀ c cerr, cache.Get W k defaultCacheTTL s = (c, some cerr) → cerr ≠ .CacheStaleError →
        get W k s = ((none, some (.FetchError e true)), s1))
      ∧ (∀ c, cache.Get W k defaultCacheTTL s = (c, some .CacheStaleError) →
        (get W k s).1 = (c, none)) := by
  have hr := refresh_of_fetch_error W k s s1 _ (fetch_of_Fetch_error W k s s1 f w1 _ hf hfetch)
  constructor
  · intro c cerr hc hne
    rw [get_of_refresh_error W k s s1 c cerr _ hc hr, if_neg hne]
  · intro c hc
    rw [get_of_refresh_error W k s s1 c _ _ hc hr, if_pos rfl]

/-- C2 (as amended) at an empty cache and a server whose second candidate
breaks off after two bytes: get returns the fatal error and no stream. -/
theorem get_on_fatal_fetch_witness :
    (get brokenWorld lsKey emptySys).1
      = (none, some (.FetchError (.osError "unexpected EOF" false) true)) := by
  have hfetch : Fetch brokenWorld lsKey ⟨[], none⟩ emptySys
      = (some (.FetchError (.osError "unexpected EOF" false) true),
          (Fetch brokenWorld lsKey ⟨[], none⟩ emptySys).2.1,
          (Fetch brokenWorld lsKey ⟨[], none⟩ emptySys).2.2) := by
    have h : (Fetch brokenWorld lsKey ⟨[], none⟩ emptySys).1
        = some (.FetchError (.osError "unexpected EOF" false) true) := by decide
    rw [← h]
  have h := (get_on_fatal_fetch brokenWorld lsKey emptySys _ ⟨[], none⟩ _ _
    (by decide) hfetch).1 none .CacheNotFoundError (by decide) (by decide)
  rw [h]

/-- C3: with no cache entry (Cache.Get returns CacheNotFoundError), when the
temporary file is there and every candidate fails skippably, get fails with
the failure of the last candidate, the bare page URL, after asking for every
candidate; when every candidate answers 404 that error is a FetchError whose
IsNotFound is true. -/
theorem get_not_found_propagates (W : World) (k : Key) (s : Sys) (f : Writer) (urls : List URL)
    (hc : cache.Get W k defaultCacheTTL s = (none, some .CacheNotFoundError))
    (hf : mktemp W = .ok f)
    (hurls : buildCandidateURLs W.parse k = .ok urls)
    (hskip : ∀ u ∈ urls, ∃ e, (fetchOne W u f s).1 = some (.FetchError e false)) :
    ∃ last, urls.getLast? = some last
      ∧ W.parse (server ++ "/" ++ k.Page ++ ".gz") = .ok last
      ∧ (get W k s).1 = (none, (fetchOne W last f s).1)
      ∧ (get W k s).2.requests = s.requests ++ urls
      ∧ ((∀ u ∈ urls, ∃ res, W.client u = .ok res ∧ res.StatusCode = 404) →
          ∃ e, (get W k s).1 = (none, some (.FetchError e false))
            ∧ FetchError.IsNotFound e false = true) := by
  obtain ⟨last, e, h1, h2, h3, h4⟩ := Fetch_exhausted W k f s urls hurls hskip
  have hr := refresh_of_fetch_error W k s _ _ (fetch_of_Fetch_error W k s _ f f _ hf h4)
  have hg := get_of_refresh_error W k s _ none _ _ hc hr
  rw [if_neg (by simp)] at hg
  refine ⟨last, h1, h2, by rw [hg, h3], by rw [hg]; rfl, ?_⟩
  intro h404
  obtain ⟨res, hres, hcode⟩ := h404 last (List.mem_of_getLast?_eq_some h1)
  rw [fetchOne_status W last f s res hres (by rw [hcode]; decide)] at h3
  simp only [Option.some.injEq, GoError.FetchError.injEq, and_true] at h3
  refine ⟨e, by rw [hg], ?_⟩
  rw [← h3, hcode]
  rfl

/-- C3 at an empty cache and a server that answers 404 to everything. -/
theorem get_not_found_propagates_witness :
    (get absentWorld lsKey emptySys).2.requests = lsURLs
      ∧ ∃ e, (get absentWorld lsKey emptySys).1 = (none, some (.FetchError e false))
          ∧ FetchError.IsNotFound e false = true := by
  obtain ⟨last, _, _, _, h4, h5⟩ :=
    get_not_found_propagates absentWorld lsKey emptySys ⟨[], none⟩ lsURLs (by decide)
      (by decide) lsURLs_built
      (fun u _ => fetchOne_skips_of_status absentWorld u _ emptySys notFound rfl (by decide))
  exact ⟨h4, h5 (fun u _ => ⟨notFound, rfl, rfl⟩)⟩

/-- C4: an attempt of fetchOne that has written at least one byte into the
sink and returns an error returns a fatal FetchError; when Fetch reaches such
an attempt (every candidate before it failed skippably), Fetch returns that
error and the requests it issued end with that candidate: none after it is
attempted. -/
theorem Fetch_fatal_after_write (W : World) (k : Key) (w : Writer) (s : Sys)
    (pre post : List URL) (u : URL) (e : GoError)
    (hurls : buildCandidateURLs W.parse k = .ok (pre ++ u :: post))
    (hpre : ∀ v ∈ pre, ∃ e0, (fetchOne W v w s).1 = some (.FetchError e0 false))
    (herr : (fetchOne W u w s).1 = some e)
    (hbytes : w.data.length < (fetchOne W u w s).2.1.data.length) :
    (∃ e0, e = .FetchError e0 true)
      ∧ (Fetch W k w s).1 = some e
      ∧ (Fetch W k w s).2.1 = (fetchOne W u w s).2.1
      ∧ (Fetch W k w s).2.2.requests = s.requests ++ pre ++ [u] := by
  obtain ⟨e0, b, he⟩ := fetchOne_error W u w s e herr
  subst he
  have hb : b = true := by
    cases b with
    | true => rfl
    | false =>
      rw [fetchOne_skip W u w s e0 herr w s] at hbytes
      exact absurd hbytes (Nat.lt_irrefl _)
  subst hb
  obtain ⟨err2, h1, _, _⟩ := fetchLoop_skip_all W pre (u :: post) none w s hpre
  have herr2 : (fetchOne W u w (s.asked pre)).1 = some (.FetchError e0 true) := by
    rw [← (fetchOne_indep W u w s (s.asked pre)).1]; exact herr
  have hF : Fetch W k w s = fetchOne W u w (s.asked pre) := by
    unfold Fetch
    rw [hurls]
    dsimp only
    rw [h1, fetchLoop_fatal W u post err2 w (s.asked pre) e0 herr2]
  refine ⟨⟨e0, rfl⟩, ?_, ?_, ?_⟩
  · rw [hF]; exact herr2
  · rw [hF]; exact ((fetchOne_indep W u w s (s.asked pre)).2).symm
  · rw [hF, fetchOne_state, Sys.asked_asked]; simp [Sys.asked]

/-- C4 at a server whose second candidate breaks off after two bytes. -/
theorem Fetch_fatal_after_write_witness :
    (∃ e0, GoError.FetchError (.osError "unexpected EOF" false) true = .FetchError e0 true)
      ∧ (Fetch brokenWorld lsKey ⟨[], none⟩ emptySys).1
          = some (.FetchError (.osError "unexpected EOF" false) true)
      ∧ (Fetch brokenWorld lsKey ⟨[], none⟩ emptySys).2.1
          = (fetchOne brokenWorld ⟨"https://dyn.manpages.debian.org/stable/ls.en.gz"⟩
              ⟨[], none⟩ emptySys).2.1
      ∧ (Fetch brokenWorld lsKey ⟨[], none⟩ emptySys).2.2.requests
          = emptySys.requests ++ [⟨"https://dyn.manpages.debian.org/stable/ls.fr.gz"⟩]
              ++ [⟨"https://dyn.manpages.debian.org/stable/ls.en.gz"⟩] :=
  Fetch_fatal_after_write brokenWorld lsKey ⟨[], none⟩ emptySys
    [⟨"https://dyn.manpages.debian.org/stable/ls.fr.gz"⟩] (lsURLs.drop 2)
    ⟨"https://dyn.manpages.debian.org/stable/ls.en.gz"⟩ _ lsURLs_built
    (fun v hv => fetchOne_skips_of_status brokenWorld v _ emptySys notFound
      (by rw [List.mem_singleton.mp hv]; decide) (by decide))
    (by decide) (by decide)

/-- C5: for a response whose status code is outside 400..599, fetchOne returns
the fatal FetchError "body too large" whenever the number of bytes copied to
the sink equals bodyLengthLimit; that is the count for every body of at least
bodyLengthLimit bytes (one of exactly that length included) copied into a sink
that takes them, and no such body ever gives success; fetchOne returns nil only
when fewer than bodyLengthLimit bytes were copied and the copy gave no error. -/
theorem fetchOne_body_too_large (W : World) (u : URL) (w : Writer) (s : Sys) (res : Response)
    (hc : W.client u = .ok res) (hs : ¬ (res.StatusCode ≥ 400 ∧ res.StatusCode < 600)) :
    bodyLengthLimit = 5 * 1024 * 1024
    ∧ ((ioCopy w (LimitReader res.Body bodyLengthLimit)).2.1 = bodyLengthLimit →
        (fetchOne W u w s).1 =
          some (.FetchError (.errorString "fetch: abandoned read: body too large") true))
    ∧ (bodyLengthLimit ≤ res.Body.bytes.length → w.takes bodyLengthLimit →
        (ioCopy w (LimitReader res.Body bodyLengthLimit)).2.1 = bodyLengthLimit)
    ∧ (bodyLengthLimit ≤ res.Body.bytes.length →
        ∃ e, (fetchOne W u w s).1 = some (.FetchError e true))
    ∧ ((fetchOne W u w s).1 = none →
        (ioCopy w (LimitReader res.Body bodyLengthLimit)).2.1 < bodyLengthLimit
          ∧ (ioCopy w (LimitReader res.Body bodyLengthLimit)).2.2 = none) := by
  have hlarge : (ioCopy w (LimitReader res.Body bodyLengthLimit)).2.1 = bodyLengthLimit →
      (fetchOne W u w s).1 =
        some (.FetchError (.errorString "fetch: abandoned read: body too large") true) := by
    intro hn
    rw [fetchOne_copy W u w s res hc hs]
    dsimp only
    unfold copyVerdict
    rw [ioCopy_limit_count w res.Body bodyLengthLimit hn]
    dsimp only
    rw [if_pos hn]
  refine ⟨rfl, hlarge, ?_, ?_, ?_⟩
  · intro hb hw
    exact (ioCopy_limit_full w res.Body bodyLengthLimit hb hw).1
  · intro hb
    by_cases hw : w.takes bodyLengthLimit
    · exact ⟨_, hlarge (ioCopy_limit_full w res.Body bodyLengthLimit hb hw).1⟩
    · have hlen : (LimitReader res.Body bodyLengthLimit).bytes.length = bodyLengthLimit := by
        simp only [LimitReader, List.length_take]; omega
      obtain ⟨e, he⟩ := ioCopy_error_of_not_takes w (LimitReader res.Body bodyLengthLimit)
        (by rw [hlen]; exact hw)
      refine ⟨e, ?_⟩
      rw [fetchOne_copy W u w s res hc hs]
      dsimp only
      unfold copyVerdict
      rw [he]
  · intro h
    rw [fetchOne_copy W u w s res hc hs] at h
    dsimp only at h
    unfold copyVerdict at h
    split at h
    · simp at h
    · rename_i herr
      split at h
      · simp at h
      · rename_i hn
        refine ⟨?_, herr⟩
        have h1 := ioCopy_count_le w (LimitReader res.Body bodyLengthLimit)
        have h2 := LimitReader_length res.Body bodyLengthLimit
        omega

/-- C5 at a body of exactly bodyLengthLimit bytes. -/
theorem fetchOne_body_too_large_witness :
    (fetchOne fullWorld ⟨"https://dyn.manpages.debian.org/ls.gz"⟩ ⟨[], none⟩ emptySys).1
      = some (.FetchError (.errorString "fetch: abandoned read: body too large") true) :=
  have h := fetchOne_body_too_large fullWorld ⟨"https://dyn.manpages.debian.org/ls.gz"⟩
    ⟨[], none⟩ emptySys ⟨"200 OK", 200, ⟨List.replicate bodyLengthLimit 0, none⟩⟩ rfl (by decide)
  h.2.1 (h.2.2.1 (by simp) trivial)

/-- C6, counterexample: for the page `%zz` the first location does not parse
(`%zz` is no percent escape), and buildCandidateURLs returns the error of
`url.Parse` instead of a list. -/
theorem buildCandidateURLs_parse_error :
    buildCandidateURLs urlParse ⟨"%zz", "stable", "en"⟩
      = .error (.osError "parse: invalid URL escape" false) := by
  decide

/-- C6 (as amended): buildCandidateURLs depends on the Key (and on `url.Parse`)
only.  It parses the location strings of the spec in their order: six when the
language is set and is not `en`, else four.  When each of them parses, the
result is exactly the list of the parsed locations, in that order.  When one
does not parse, the result is the error of `url.Parse` for the first location
that fails, and no list; an error is returned in no other case. -/
theorem buildCandidateURLs_locations (parse : String → Except GoError URL) (k : Key) :
    (specLocations k).length = (if k.Lang = "" ∨ k.Lang = "en" then 4 else 6)
    ∧ (∀ f : String → URL, (∀ x ∈ specLocations k, parse x = .ok (f x)) →
        buildCandidateURLs parse k = .ok ((specLocations k).map f))
    ∧ (∀ pre x post e, specLocations k = pre ++ x :: post →
        (∀ y ∈ pre, ∃ u, parse y = .ok u) → parse x = .error e →
        buildCandidateURLs parse k = .error e)
    ∧ (∀ x ∈ specLocations k, ∀ e, parse x = .error e →
        ∃ e1, buildCandidateURLs parse k = .error e1)
    ∧ (∀ e, buildCandidateURLs parse k = .error e →
        ∃ pre x post, specLocations k = pre ++ x :: post ∧ parse x = .error e
          ∧ ∀ y ∈ pre, ∃ u, parse y = .ok u)
    ∧ (∀ urls, buildCandidateURLs parse k = .ok urls →
        urls.length = (if k.Lang = "" ∨ k.Lang = "en" then 4 else 6)
          ∧ List.Forall₂ (fun x u => parse x = .ok u) (specLocations k) urls) := by
  refine ⟨?_, ?_, ?_, ?_, ?_, ?_⟩
  · rw [← candidateStrings_eq, candidateStrings_length]
  · intro f hf
    unfold buildCandidateURLs
    rw [candidateStrings_eq]
    exact parseAll_map parse f _ hf
  · intro pre x post e hsplit hpre hx
    unfold buildCandidateURLs
    rw [candidateStrings_eq, hsplit]
    exact parseAll_first_error parse pre post x e hpre hx
  · intro x hx e he
    cases hb : buildCandidateURLs parse k with
    | error e1 => exact ⟨e1, rfl⟩
    | ok urls =>
      exfalso
      unfold buildCandidateURLs at hb
      rw [candidateStrings_eq] at hb
      obtain ⟨u, hu⟩ := parseAll_ok_mem parse _ urls hb x hx
      rw [he] at hu
      simp at hu
  · intro e he
    unfold buildCandidateURLs at he
    rw [candidateStrings_eq] at he
    exact parseAll_error parse _ e he
  · intro urls h
    refine ⟨by rw [parseAll_length parse _ urls h, candidateStrings_length], ?_⟩
    unfold buildCandidateURLs at h
    rw [candidateStrings_eq] at h
    exact parseAll_forall₂ parse _ urls h

/-- C6 (as amended) at `lsKey`, whose six locations all parse, and at the page
`%zz`, whose first location does not: the list in the first case, the error of
`url.Parse` in the second. -/
theorem buildCandidateURLs_locations_witness :
    buildCandidateURLs urlParse lsKey = .ok lsURLs
      ∧ buildCandidateURLs urlParse ⟨"%zz", "stable", "en"⟩
          = .error (.osError "parse: invalid URL escape" false) :=
  ⟨(buildCandidateURLs_locations urlParse lsKey).2.1 URL.mk (by decide),
    (buildCandidateURLs_locations urlParse ⟨"%zz", "stable", "en"⟩).2.2.1 []
      "https://dyn.manpages.debian.org/stable/%zz.en.gz"
      ["https://dyn.manpages.debian.org/stable/%zz.gz",
        "https://dyn.manpages.debian.org/%zz.en.gz",
        "https://dyn.manpages.debian.org/%zz.gz"]
      (.osError "parse: invalid URL escape" false) (by decide) (by simp) (by decide)⟩

/-- C7: for an entry that is there (the file at the path of the Key opens),
Cache.Get with ttl at most 0 returns the open stream and no error whatever the
age; with a positive ttl (and the stat of the file succeeding) it returns the
stream with CacheStaleError exactly when the age exceeds ttl, and the stream
with no error when the age is at most ttl.  The stream is on the whole content
of the entry in both cases.  The age is `time.Since` of the modification
time: the wall clock difference, when that fits a Duration. -/
theorem Cache_Get_staleness (W : World) (c : Cache) (k : Key) (ttl : Int) (s : Sys)
    (p : String) (f : File)
    (hp : c.path W k = .ok p) (hf : s.files p = some f) (hopen : W.fault .cacheOpen = none) :
    (ttl ≤ 0 → c.Get W k ttl s = (some ⟨f.data, 0, f.modTime⟩, none))
      ∧ (0 < ttl → W.fault .cacheStat = none →
          (c.Get W k ttl s = (some ⟨f.data, 0, f.modTime⟩, some .CacheStaleError)
              ↔ timeSince W f.modTime > ttl)
          ∧ (timeSince W f.modTime ≤ ttl →
              c.Get W k ttl s = (some ⟨f.data, 0, f.modTime⟩, none)))
      ∧ Stream.content ⟨f.data, 0, f.modTime⟩ = f.data
      ∧ (minDuration ≤ W.now - f.modTime → W.now - f.modTime ≤ maxDuration →
          timeSince W f.modTime = W.now - f.modTime) := by
  refine ⟨?_, ?_, by simp [Stream.content], ?_⟩
  · intro h
    simp [Cache.Get, hp, osOpen, hf, hopen, h]
  · intro h hstat
    have h0 : ¬ ttl ≤ 0 := by omega
    constructor
    · by_cases ha : timeSince W f.modTime > ttl
      · simp [Cache.Get, hp, osOpen, hf, hopen, h0, hstat, ha]
      · simp [Cache.Get, hp, osOpen, hf, hopen, h0, hstat, ha]
    · intro ha
      have ha2 : ¬ timeSince W f.modTime > ttl := by omega
      simp [Cache.Get, hp, osOpen, hf, hopen, h0, hstat, ha2]
  · intro h1 h2
    unfold timeSince
    rw [min_eq_right h2, max_eq_right h1]

/-- C7 at an entry written three weeks ago: stale for the default ttl, returned
without error for ttl 0. -/
theorem Cache_Get_staleness_witness :
    cache.Get absentWorld lsKey defaultCacheTTL staleSys
        = (some ⟨oldBody, 0, 0⟩, some .CacheStaleError)
      ∧ cache.Get absentWorld lsKey 0 staleSys = (some ⟨oldBody, 0, 0⟩, none) :=
  have h := Cache_Get_staleness absentWorld cache lsKey
  ⟨((h defaultCacheTTL staleSys lsPath ⟨oldBody, 0⟩ (by decide) (by decide) (by decide)).2.1
      (by decide) (by decide)).1.mpr (by decide),
    (h 0 staleSys lsPath ⟨oldBody, 0⟩ (by decide) (by decide) (by decide)).1 (by decide)⟩

/-- C8, counterexample: the Keys (ls, stable/main, fr) and (ls, stable, main/fr)
differ in distribution and language and have the same path. -/
theorem Cache_path_collision :
    (⟨"ls", "stable/main", "fr"⟩ : Key) ≠ ⟨"ls", "stable", "main/fr"⟩
      ∧ Cache.path scenarioWorld ⟨"/var/cache/dman"⟩ ⟨"ls", "stable/main", "fr"⟩
          = .ok "/var/cache/dman/stable/main/fr/ls"
      ∧ Cache.path scenarioWorld ⟨"/var/cache/dman"⟩ ⟨"ls", "stable", "main/fr"⟩
          = .ok "/var/cache/dman/stable/main/fr/ls" := by
  decide

/-- Keys with an empty field or a dot element in a field share a path as well:
(ls, "", fr), (ls, fr, "") and (ls, ., fr) all have the path `<root>/fr/ls`. -/
theorem Cache_path_empty_or_dot_field :
    Cache.path scenarioWorld ⟨"/var/cache/dman"⟩ ⟨"ls", "", "fr"⟩ = .ok "/var/cache/dman/fr/ls"
      ∧ Cache.path scenarioWorld ⟨"/var/cache/dman"⟩ ⟨"ls", "fr", ""⟩
          = .ok "/var/cache/dman/fr/ls"
      ∧ Cache.path scenarioWorld ⟨"/var/cache/dman"⟩ ⟨"ls", ".", "fr"⟩
          = .ok "/var/cache/dman/fr/ls" := by
  decide

/-- C8 (as amended): for a fixed cache root, the path of a Key is
`filepath.Join(root, dist, lang, page)`.  For Keys whose page, distribution and
language are plain names (not empty, without `/`, neither `.` nor `..`) it is
the cleaned root followed by `/<dist>/<lang>/<page>`, and two such Keys with the
same path are the same Key: Keys that differ have different paths. -/
theorem Cache_path_injective_on_plain (W : World) (c : Cache) (root : String)
    (hroot : c.root W = .ok root) :
    (∀ k, c.path W k = .ok (filepathJoin [root, k.Dist, k.Lang, k.Page]))
      ∧ (∀ k, k.plain → c.path W k = .ok
          ⟨cleanRootSlash root.data ++ k.Dist.data ++ '/' :: k.Lang.data ++ '/' :: k.Page.data⟩)
      ∧ (∀ k1 k2, k1.plain → k2.plain → c.path W k1 = c.path W k2 → k1 = k2) := by
  have hex : ∀ k : Key, c.path W k = .ok (filepathJoin [root, k.Dist, k.Lang, k.Page]) := by
    intro k
    rw [Cache_path_root, hroot]
  have hne : root.data ≠ [] := fun h0 => Cache_root_ne_empty W c root hroot (String.ext h0)
  refine ⟨hex, ?_, ?_⟩
  · intro k hk
    rw [hex k]
    congr 1
    apply String.ext
    rw [Cache_path_plain W c k root _ hroot hk (hex k), rootDir_eq root.data hne]
  · intro k1 k2 h1 h2 heq
    have e1 := Cache_path_plain W c k1 root _ hroot h1 (hex k1)
    have e2 := Cache_path_plain W c k2 root _ hroot h2 (heq ▸ hex k1)
    rw [e1] at e2
    simp only [List.append_assoc, List.append_cancel_left_eq] at e2
    obtain ⟨hd, hrest⟩ := sep_split_unique _ _ _ _ h1.2.1.2.1 h2.2.1.2.1 e2
    obtain ⟨hl, hpg⟩ := sep_split_unique _ _ _ _ h1.2.2.2.1 h2.2.2.2.1 hrest
    cases k1; cases k2
    simp only [Key.mk.injEq]
    exact ⟨String.ext hpg, String.ext hd, String.ext hl⟩

/-- C8 (as amended) at `lsKey` under the root `/var/cache/dman`: its path, which
no other Key of plain names has. -/
theorem Cache_path_injective_on_plain_witness :
    Cache.path scenarioWorld ⟨"/var/cache/dman"⟩ lsKey = .ok "/var/cache/dman/stable/fr/ls"
      ∧ ∀ k, k.plain →
          Cache.path scenarioWorld ⟨"/var/cache/dman"⟩ lsKey
            = Cache.path scenarioWorld ⟨"/var/cache/dman"⟩ k → lsKey = k := by
  have h := Cache_path_injective_on_plain scenarioWorld ⟨"/var/cache/dman"⟩ "/var/cache/dman"
    (by decide)
  have hk : lsKey.plain := by unfold Key.plain plainName; decide
  exact ⟨by rw [h.2.1 lsKey hk]; decide, fun k hk2 => h.2.2 lsKey k hk hk2⟩

/-- C9: starting from an empty cache, with the home directory known and no
local file operation failing, when every candidate before `u` fails skippably
and `u` answers 200 with a body `B` shorter than the size cap and no read
error, get returns a stream whose content is `B` and a nil error, it has asked
for the candidates up to `u` only, and afterwards the cache entry of the Key,
at `<root>/<dist>/<lang>/<page>`, holds exactly `B`: Cache.Get with ttl 0
returns a stream whose content is `B`. -/
theorem get_fetches_and_caches (W : World) (k : Key) (s : Sys) (h : String)
    (pre post : List URL) (u : URL) (status : String) (B : List Byte)
    (hW : W.nominal) (hh : W.home = .ok h)
    (hempty : ∀ q, s.files q = none)
    (hurls : buildCandidateURLs W.parse k = .ok (pre ++ u :: post))
    (hpre : ∀ v ∈ pre, ∃ e, (fetchOne W v ⟨[], none⟩ s).1 = some (.FetchError e false))
    (hu : W.client u = .ok ⟨status, 200, ⟨B, none⟩⟩)
    (hB : B.length < bodyLengthLimit) :
    (∃ r, (get W k s).1 = (some r, none) ∧ r.content = B)
      ∧ (get W k s).2.requests = s.requests ++ pre ++ [u]
      ∧ (get W k s).2.files
          (filepathJoin [filepathJoin [h, ".dman/cache"], k.Dist, k.Lang, k.Page])
          = some ⟨B, W.now⟩
      ∧ (∃ r, cache.Get W k 0 (get W k s).2 = (some r, none) ∧ r.content = B) := by
  have hp := cache_path_home W k h hh
  have hc := Cache_Get_absent W cache k defaultCacheTTL s _ (hW.1 _) hp (hempty _)
  have hone : ∀ s0, fetchOne W u ⟨[], none⟩ s0 = (none, ⟨[] ++ B, none⟩, s0.asked [u]) :=
    fun s0 => fetchOne_ok W u s0 [] status 200 B hu (by decide) hB
  have hF := Fetch_success W k ⟨[], none⟩ s pre post u hurls hpre (by rw [hone])
  rw [hone, Sys.asked_asked] at hF
  have hmk : mktemp W = .ok ⟨[], none⟩ := by
    simp [mktemp, hW.1, hW.2.1]
  have hfetch : fetch W k s = (.ok ⟨B, 0, W.now⟩, s.asked (pre ++ [u])) := by
    unfold fetch
    rw [hmk]
    dsimp only
    rw [hF]
    simp [hW.1]
  have hput := Cache_Put_fresh W cache k ⟨B, 0, W.now⟩ (s.asked (pre ++ [u])) _ hW hp (hempty _)
  have hrefresh : refresh W k s = (.ok ⟨B, 0, W.now⟩,
      ⟨fun q => if q = filepathJoin [filepathJoin [h, ".dman/cache"], k.Dist, k.Lang, k.Page]
          then some ⟨B, W.now⟩ else s.files q, s.requests ++ (pre ++ [u]), s.log⟩) := by
    unfold refresh
    rw [hfetch]
    dsimp only
    rw [hput]
    simp [hW.1, Stream.content, Sys.asked]
  have hget : get W k s = ((some ⟨B, 0, W.now⟩, none),
      ⟨fun q => if q = filepathJoin [filepathJoin [h, ".dman/cache"], k.Dist, k.Lang, k.Page]
          then some ⟨B, W.now⟩ else s.files q, s.requests ++ (pre ++ [u]), s.log⟩) := by
    unfold get
    rw [hc]
    dsimp only
    rw [hrefresh]
  rw [hget]
  refine ⟨⟨_, rfl, by simp [Stream.content]⟩, by simp, by simp, ⟨B, 0, W.now⟩, ?_, by simp [Stream.content]⟩
  simp [Cache.Get, hp, osOpen, hW.1]

/-- C9 at the scenario of the spec: Key (ls, stable, fr), 404 for `stable/ls.fr`,
`stable/ls.en` and `stable/ls`, 200 with `newBody` for `ls.fr`. -/
theorem get_fetches_and_caches_witness :
    (∃ r, (get scenarioWorld lsKey emptySys).1 = (some r, none) ∧ r.content = newBody)
      ∧ (get scenarioWorld lsKey emptySys).2.requests = lsURLs.take 4
      ∧ (get scenarioWorld lsKey emptySys).2.files lsPath = some ⟨newBody, 1000⟩
      ∧ (∃ r, cache.Get scenarioWorld lsKey 0 (get scenarioWorld lsKey emptySys).2 = (some r, none)
          ∧ r.content = newBody) :=
  get_fetches_and_caches scenarioWorld lsKey emptySys "/home/user" (lsURLs.take 3)
    (lsURLs.drop 4) ⟨"https://dyn.manpages.debian.org/ls.fr.gz"⟩ "200 OK" newBody
    ⟨fun _ => rfl, rfl, rfl⟩ rfl (fun _ => rfl) lsURLs_built
    (fun v hv => fetchOne_skips_of_status scenarioWorld v _ emptySys notFound
      (by
        simp only [lsURLs, List.take, List.mem_cons, List.mem_singleton, List.not_mem_nil,
          or_false] at hv
        rcases hv with rfl | rfl | rfl <;> decide)
      (by decide))
    (by decide) (by decide)

/-- C10: Fetch returns nil exactly when some candidate succeeds and every
candidate before it failed skippably.  Then the requests issued end with that
candidate (none after it is attempted) and the sink has received the body of
that candidate and nothing else.  A skippable failure is a transport error or a
status in 400..599, and it leaves the sink as it was. -/
theorem Fetch_nil_iff (W : World) (k : Key) (w : Writer) (s : Sys) :
    ((Fetch W k w s).1 = none ↔
      ∃ pre u post, buildCandidateURLs W.parse k = .ok (pre ++ u :: post)
        ∧ (∀ v ∈ pre, ∃ e, (fetchOne W v w s).1 = some (.FetchError e false))
        ∧ (fetchOne W u w s).1 = none)
    ∧ (∀ pre u post, buildCandidateURLs W.parse k = .ok (pre ++ u :: post) →
        (∀ v ∈ pre, ∃ e, (fetchOne W v w s).1 = some (.FetchError e false)) →
        (fetchOne W u w s).1 = none →
        (Fetch W k w s).2.2.requests = s.requests ++ pre ++ [u]
          ∧ ∃ res, W.client u = .ok res ∧ res.Body.err = none
              ∧ (Fetch W k w s).2.1.data = w.data ++ res.Body.bytes)
    ∧ (∀ v w0 s0, (∃ e, (fetchOne W v w0 s0).1 = some (.FetchError e false)) ↔
        ((∃ err, W.client v = .error err)
          ∨ ∃ res, W.client v = .ok res ∧ res.StatusCode ≥ 400 ∧ res.StatusCode < 600))
    ∧ (∀ v e w0 s0, (fetchOne W v w0 s0).1 = some (.FetchError e false) →
        (fetchOne W v w0 s0).2.1 = w0) := by
  refine ⟨⟨?_, ?_⟩, ?_, ?_, ?_⟩
  · intro h
    unfold Fetch at h
    cases hb : buildCandidateURLs W.parse k with
    | error err => rw [hb] at h; simp at h
    | ok urls =>
      rw [hb] at h
      dsimp only at h
      rcases fetchLoop_none W urls none w s h with ⟨h0, _⟩ | ⟨pre, u, post, h1, h2, h3⟩
      · exact absurd h0 (buildCandidateURLs_ne_nil W.parse k urls hb)
      · exact ⟨pre, u, post, by rw [h1], h2, h3⟩
  · rintro ⟨pre, u, post, hurls, hpre, hu⟩
    rw [Fetch_success W k w s pre post u hurls hpre hu,
      ← (fetchOne_indep W u w s (s.asked pre)).1]
    exact hu
  · intro pre u post hurls hpre hu
    rw [Fetch_success W k w s pre post u hurls hpre hu]
    refine ⟨by rw [fetchOne_state, Sys.asked_asked]; simp [Sys.asked], ?_⟩
    rw [← (fetchOne_indep W u w s (s.asked pre)).2]
    cases hc : W.client u with
    | error err => rw [fetchOne_transport W u w s err hc] at hu; simp at hu
    | ok res =>
      by_cases hs : res.StatusCode ≥ 400 ∧ res.StatusCode < 600
      · rw [fetchOne_status W u w s res hc hs] at hu; simp at hu
      · rw [fetchOne_copy W u w s res hc hs] at hu ⊢
        dsimp only at hu ⊢
        have herr : (ioCopy w (LimitReader res.Body bodyLengthLimit)).2.2 = none := by
          unfold copyVerdict at hu
          split at hu
          · simp at hu
          · assumption
        have hn : (ioCopy w (LimitReader res.Body bodyLengthLimit)).2.1 ≠ bodyLengthLimit := by
          intro hn
          unfold copyVerdict at hu
          rw [herr] at hu
          dsimp only at hu
          rw [if_pos hn] at hu
          simp at hu
        obtain ⟨h1, _, h3⟩ := ioCopy_limit_clean w res.Body bodyLengthLimit herr hn
        exact ⟨res, rfl, h3, h1⟩
  · intro v w0 s0
    constructor
    · rintro ⟨e, he⟩
      cases hc : W.client v with
      | error err => exact Or.inl ⟨err, rfl⟩
      | ok res =>
        by_cases hs : res.StatusCode ≥ 400 ∧ res.StatusCode < 600
        · exact Or.inr ⟨res, rfl, hs⟩
        · rw [fetchOne_copy W v w0 s0 res hc hs] at he
          exact absurd he (copyVerdict_ne_skip _ _ e)
    · rintro (⟨err, hc⟩ | ⟨res, hc, hs⟩)
      · exact ⟨err, by rw [fetchOne_transport W v w0 s0 err hc]⟩
      · exact fetchOne_skips_of_status W v w0 s0 res hc hs
  · intro v e w0 s0 h
    rw [fetchOne_skip W v w0 s0 e h w0 s0]

/-- C10 at the scenario of the spec: the fourth candidate succeeds. -/
theorem Fetch_nil_iff_witness :
    (Fetch scenarioWorld lsKey ⟨[], none⟩ emptySys).1 = none :=
  (Fetch_nil_iff scenarioWorld lsKey ⟨[], none⟩ emptySys).1.mpr
    ⟨lsURLs.take 3, ⟨"https://dyn.manpages.debian.org/ls.fr.gz"⟩, lsURLs.drop 4, lsURLs_built,
      fun v hv => fetchOne_skips_of_status scenarioWorld v _ emptySys notFound
        (by
          simp only [lsURLs, List.take, List.mem_cons, List.mem_singleton, List.not_mem_nil,
            or_false] at hv
          rcases hv with rfl | rfl | rfl <;> decide)
        (by decide),
      by decide⟩

end Dman
